import Mathlib

/-!
# RDetectionOutputLayer (DRBox)

A shallow embedding of `src/caffe/layers/rdetection_output_layer.cpp`:
`LayerSetUp`, `Reshape` and `Forward_cpu` of `RDetectionOutputLayer`.

Conventions of the embedding.

* `float` / `Dtype` values are rationals.  Only comparisons of scores and the
  two constants `-1` and `0` matter below, and the comparison of non-NaN
  floats is a linear order, as the one of `ℚ` is.
* `int` values are `Int`.  The products that `Reshape` compares with the blob
  shapes are reduced to 32 bits by `wrap32`, as the `int` arithmetic of the
  source wraps them.  The counters `num_det` and `num_kept` are bounded by the
  element count of the confidence blob, which Caffe keeps below `INT_MAX`, so
  they never wrap.
* `std::map<int, V>` is an association list kept in ascending key order, the
  order in which the source iterates over it.
* A failed `CHECK` or a `LOG(FATAL)` aborts the process: the embedded
  function returns `none`.
* The helpers of `bbox_util` (`ApplyNMSFastR`, the decoding functions) and
  `std::sort` are not part of the file.  `ApplyNMSFastR` and `std::sort` are
  arguments of the embedded functions; the decoded boxes and the confidence
  maps of the images are the input of `Forward_cpu`.
-/

namespace RDetectionOutput

/-- A confidence value (`float` in the source). -/
abbrev Score := ℚ

/-- The protobuf message `NormalizedRBox`: a rotated box. -/
structure NormalizedRBox where
  xcenter : ℚ
  ycenter : ℚ
  width : ℚ
  height : ℚ
  angle : ℚ
deriving DecidableEq

/-- The type `LabelRBox`, a `map<int, vector<NormalizedRBox> >`. -/
abbrev LabelRBox := List (Int × List NormalizedRBox)

/-- The type `map<int, vector<float> >` of per-class confidences. -/
abbrev ConfScores := List (Int × List Score)

/-- The type `map<int, vector<int> >` of per-class kept indices. -/
abbrev IndexMap := List (Int × List Int)

/-- The type `pair<float, pair<int, int> >`: score, then (label, index). -/
abbrev ScoreIndexPair := Score × (Int × Int)

/-- The fields of `RDetectionOutputParameter` that `LayerSetUp` reads.  A field
whose presence is tested with `has_...` is an `Option`. -/
structure RDetectionOutputParameter where
  num_classes : Option Int
  prior_width : Option ℚ
  prior_height : Option ℚ
  regress_size : Bool
  regress_angle : Bool
  share_location : Bool
  background_label_id : Int
  code_type : Nat
  variance_encoded_in_target : Bool
  keep_top_k : Int
  confidence_threshold : Option ℚ
  nms_threshold : ℚ
  eta : ℚ
  top_k : Option Int
  output_directory : String

/-- The data members of `RDetectionOutputLayer` set by `LayerSetUp` and
`Reshape`. -/
structure Layer where
  regress_size_ : Bool
  regress_angle_ : Bool
  prior_width_ : ℚ
  prior_height_ : ℚ
  num_param_ : Int
  num_classes_ : Int
  share_location_ : Bool
  num_loc_classes_ : Int
  background_label_id_ : Int
  code_type_ : Nat
  variance_encoded_in_target_ : Bool
  keep_top_k_ : Int
  confidence_threshold_ : ℚ
  nms_threshold_ : ℚ
  eta_ : ℚ
  top_k_ : Int
  need_save_ : Bool
  name_count_ : Int
  num_priors_ : Int

/-- The constant `FLT_MAX` of `<cfloat>`. -/
def FLT_MAX : ℚ := 340282346638528859811704183484516925440

/-- `LayerSetUp` (lines 16-86): reads the parameter message into the layer.
The three `CHECK(has_...)` and the three checks on `nms_threshold_` and `eta_`
abort. -/
def LayerSetUp (p : RDetectionOutputParameter) : Option Layer :=
  match p.num_classes, p.prior_width, p.prior_height with
  | some num_classes, some prior_width, some prior_height =>
    if p.nms_threshold < 0 then none
    else if p.eta ≤ 0 then none
    else if 1 < p.eta then none
    else
      some
        { regress_size_ := p.regress_size
          regress_angle_ := p.regress_angle
          prior_width_ := if !p.regress_size then prior_width else -1
          prior_height_ := if !p.regress_size then prior_height else -1
          num_param_ :=
            2 + (if p.regress_size then 2 else 0) + (if p.regress_angle then 1 else 0)
          num_classes_ := num_classes
          share_location_ := p.share_location
          num_loc_classes_ := if p.share_location then 1 else num_classes
          background_label_id_ := p.background_label_id
          code_type_ := p.code_type
          variance_encoded_in_target_ := p.variance_encoded_in_target
          keep_top_k_ := p.keep_top_k
          confidence_threshold_ :=
            match p.confidence_threshold with
            | some t => t
            | none => -FLT_MAX
          nms_threshold_ := p.nms_threshold
          eta_ := p.eta
          top_k_ :=
            match p.top_k with
            | some k => k
            | none => -1
          need_save_ := if p.output_directory = "" then false else true
          name_count_ := 0
          num_priors_ := 0 }
  | _, _, _ => none

/-- The four axes of a Caffe blob read by `Reshape`. -/
structure BlobShape where
  num : Int
  channels : Int
  height : Int
  width : Int

/-- The value that a 32-bit `int` holds after a result `x` of `int` arithmetic
wrapped around: the representative of `x` modulo `2^32` between `-2^31` and
`2^31 - 1`. -/
def wrap32 (x : Int) : Int :=
  (x + 2147483648) % 4294967296 - 2147483648

/-- `Reshape` (lines 89-119): sets `num_priors_` by the truncating integer
division of the prior blob's height by `num_param_`, checks the three
`CHECK_EQ`, and gives `top[0]` the shape `1 x 1 x 1 x 1`.  Returns the layer
and the shape of `top[0]`.  The two products are `int` products, evaluated from
the left and wrapped to 32 bits after each multiplication.  A division by
`num_param_ = 0` ends the process and is a failure.  The height of a blob is
not negative, so the quotient itself is an `int`. -/
def Reshape (L : Layer) (bottom0 bottom1 bottom2 : BlobShape) : Option (Layer × List Int) :=
  if bottom0.num ≠ bottom1.num then none
  else if L.num_param_ = 0 then none
  else
    let num_priors := Int.tdiv bottom2.height L.num_param_
    if wrap32 (wrap32 (num_priors * L.num_loc_classes_) * L.num_param_) ≠ bottom0.channels
    then none
    else if wrap32 (num_priors * L.num_classes_) ≠ bottom1.channels then none
    else some ({ L with num_priors_ := num_priors }, [1, 1] ++ [1] ++ [1])

/-- Element access `v[idx]` of a vector by an `int`, as guarded by
`CHECK_LT(idx, v.size())`: the comparison converts `idx` to `size_t`, so a
negative index fails it like a too large one. -/
def vecAt {α : Type} (v : List α) (idx : Int) : Option α :=
  if 0 ≤ idx then v[idx.toNat]? else none

/-- The access `m[k]` of a `std::map<int, vector<int> >` followed by a change `f`
of the vector it returns: a missing key is inserted with an empty vector, at
its place in the ascending key order. -/
def mapModify (m : IndexMap) (k : Int) (f : List Int → List Int) : IndexMap :=
  match m with
  | [] => [(k, f [])]
  | (k', v) :: rest =>
    if k = k' then (k', f v) :: rest
    else if k < k' then (k, f []) :: (k', v) :: rest
    else (k', v) :: mapModify rest k f

/-- The signature of `ApplyNMSFastR` as called at lines 183-184: boxes, scores,
`confidence_threshold_`, `nms_threshold_`, `eta_`, `top_k_`; the result is the
index vector it fills. -/
abbrev NMS := List NormalizedRBox → List Score → ℚ → ℚ → ℚ → Int → List Int

/-- The class labels `0, 1, ..., num_classes - 1` visited by the loop of line 162. -/
def classRange (num_classes : Int) : List Int :=
  (List.range num_classes.toNat).map Int.ofNat

/-- The loop over the classes (lines 162-186) on the classes still to visit,
with the map `indices` and the counter `num_det` built so far. -/
def classLoop (L : Layer) (nms : NMS) (decode_rboxes : LabelRBox) (conf_scores : ConfScores) :
    List Int → IndexMap → Int → Option (IndexMap × Int)
  | [], indices, num_det => some (indices, num_det)
  | c :: cs, indices, num_det =>
    if c = L.background_label_id_ then
      classLoop L nms decode_rboxes conf_scores cs indices num_det
    else
      match conf_scores.lookup c with
      | none => none
      | some scores =>
        let label : Int := if L.share_location_ then -1 else c
        match decode_rboxes.lookup label with
        | none => none
        | some rboxes =>
          let kept := nms rboxes scores L.confidence_threshold_ L.nms_threshold_ L.eta_ L.top_k_
          classLoop L nms decode_rboxes conf_scores cs
            (mapModify indices c (fun _ => kept)) (num_det + kept.length)

/-- The inner loop of lines 202-208 for one label: every index is checked
against the size of the score vector and pushed with its score. -/
def pairsOfLabel (label : Int) (scores : List Score) : List Int → Option (List ScoreIndexPair)
  | [] => some []
  | idx :: rest =>
    match vecAt scores idx with
    | none => none
    | some s =>
      match pairsOfLabel label scores rest with
      | none => none
      | some ps => some ((s, (label, idx)) :: ps)

/-- The loop of lines 190-209: the vector `score_index_pairs` collected from
the map `indices`, in the order of the map. -/
def collectPairs (conf_scores : ConfScores) : IndexMap → Option (List ScoreIndexPair)
  | [] => some []
  | (label, label_indices) :: rest =>
    match conf_scores.lookup label with
    | none => none
    | some scores =>
      match pairsOfLabel label scores label_indices, collectPairs conf_scores rest with
      | some a, some b => some (a ++ b)
      | _, _ => none

/-- The call `v.resize(n)` of a vector of pairs: the first `n` elements, padded
with value-initialised pairs when the vector is shorter. -/
def resize (v : List ScoreIndexPair) (n : Nat) : List ScoreIndexPair :=
  v.take n ++ List.replicate (n - v.length) (0, (0, 0))

/-- The loop of lines 215-221: `new_indices[label].push_back(idx)` for every
pair, in the order of the vector. -/
def regroup (pairs : List ScoreIndexPair) : IndexMap :=
  pairs.foldl (fun m p => mapModify m p.2.1 (fun v => v ++ [p.2.2])) []

/-- Modelled from the spec: the comparator `SortScorePairDescend` of
`bbox_util`, which is not part of the file; the spec has the pairs sorted
"descending by score". -/
def SortScorePairDescend (pair1 pair2 : ScoreIndexPair) : Bool :=
  decide (pair1.1 > pair2.1)

/-- What `std::sort` with `SortScorePairDescend` guarantees of its result: a
rearrangement of the vector in which no later pair comes before an earlier one
in the comparator's order.  Nothing is said on pairs of equal score. -/
def IsStdSort (sortFn : List ScoreIndexPair → List ScoreIndexPair) : Prop :=
  ∀ v, (sortFn v).Perm v ∧
    (sortFn v).Pairwise (fun a b => SortScorePairDescend b a = false)

/-- One admissible `std::sort`: the insertion sort by descending score. -/
def sortDescend (v : List ScoreIndexPair) : List ScoreIndexPair :=
  List.insertionSort (fun a b => b.1 ≤ a.1) v

/-- The body of the loop over the images (lines 158-229) for one image: the
map pushed on `all_indices` and the amount added to `num_kept`. -/
def selectImage (L : Layer) (nms : NMS) (sortFn : List ScoreIndexPair → List ScoreIndexPair)
    (decode_rboxes : LabelRBox) (conf_scores : ConfScores) : Option (IndexMap × Int) :=
  match classLoop L nms decode_rboxes conf_scores (classRange L.num_classes_) [] 0 with
  | none => none
  | some (indices, num_det) =>
    if L.keep_top_k_ > -1 ∧ num_det > L.keep_top_k_ then
      match collectPairs conf_scores indices with
      | none => none
      | some score_index_pairs =>
        some (regroup (resize (sortFn score_index_pairs) L.keep_top_k_.toNat), L.keep_top_k_)
    else some (indices, num_det)

/-- The loop over the images (lines 156-230) on the images still to process,
with `all_indices` and `num_kept` built so far.  An image is the pair of its
decoded boxes and its confidences. -/
def imageLoop (L : Layer) (nms : NMS) (sortFn : List ScoreIndexPair → List ScoreIndexPair) :
    List (LabelRBox × ConfScores) → List IndexMap → Int → Option (List IndexMap × Int)
  | [], all_indices, num_kept => some (all_indices, num_kept)
  | img :: rest, all_indices, num_kept =>
    match selectImage L nms sortFn img.1 img.2 with
    | none => none
    | some (indices, kept) =>
      imageLoop L nms sortFn rest (all_indices ++ [indices]) (num_kept + kept)

/-- One line of an image's output file (lines 304-306): the six numbers
`xcenter*300 ycenter*300 width*300 height*300 label angle`.  The products are
taken in `ℚ`; the rounding of `float` and the decimal text are not modelled. -/
structure OutLine where
  xcenter300 : ℚ
  ycenter300 : ℚ
  width300 : ℚ
  height300 : ℚ
  label : Int
  angle : ℚ
deriving DecidableEq

/-- The line written for box `rbox` of class `label`. -/
def lineOf (label : Int) (rbox : NormalizedRBox) : OutLine :=
  { xcenter300 := rbox.xcenter * 300
    ycenter300 := rbox.ycenter * 300
    width300 := rbox.width * 300
    height300 := rbox.height * 300
    label := label
    angle := rbox.angle }

/-- The loop of lines 289-308 over the indices of one label: with `need_save_`
a line is written for `rboxes[idx]`; the stores to `top_data` are commented
out in the source.  Reading a box out of range is undefined and modelled as a
failure. -/
def writeLines (need_save : Bool) (label : Int) (rboxes : List NormalizedRBox) :
    List Int → Option (List OutLine)
  | [] => some []
  | idx :: rest =>
    if need_save then
      match vecAt rboxes idx with
      | none => none
      | some rbox =>
        match writeLines need_save label rboxes rest with
        | none => none
        | some ls => some (lineOf label rbox :: ls)
    else writeLines need_save label rboxes rest

/-- The loop of lines 268-309 over the map of one image: the lines written to
the image's file. -/
def resultLoop (L : Layer) (decode_rboxes : LabelRBox) (conf_scores : ConfScores) :
    IndexMap → Option (List OutLine)
  | [] => some []
  | (label, indices) :: rest =>
    match conf_scores.lookup label with
    | none => none
    | some _ =>
      let loc_label : Int := if L.share_location_ then -1 else label
      match decode_rboxes.lookup loc_label with
      | none => none
      | some rboxes =>
        match writeLines L.need_save_ label rboxes indices,
            resultLoop L decode_rboxes conf_scores rest with
        | some a, some b => some (a ++ b)
        | _, _ => none

/-- The loop of lines 255-315 over the images and their maps. -/
def outputLoop (L : Layer) :
    List (LabelRBox × ConfScores) → List IndexMap → Option (List (List OutLine))
  | img :: rest, m :: ms =>
    match resultLoop L img.1 img.2 m, outputLoop L rest ms with
    | some f, some fs => some (f :: fs)
    | _, _ => none
  | _, _ => some []

/-- What `Forward_cpu` leaves behind: the vector `all_indices`, the counter
`num_kept`, the shape and the content of `top[0]`, and the lines written to
the file of each image. -/
structure ForwardResult where
  all_indices : List IndexMap
  num_kept : Int
  top_shape : List Int
  top_data : List ℚ
  files : List (List OutLine)
deriving DecidableEq

/-- `Forward_cpu` (lines 122-316) on the decoded boxes and confidences of the
images of the batch.  `top[0]` is reshaped to `1 x 1 x 1 x 1` in both branches
of line 236 and its only element is set to `-1` or `0`. -/
def Forward_cpu (L : Layer) (nms : NMS) (sortFn : List ScoreIndexPair → List ScoreIndexPair)
    (images : List (LabelRBox × ConfScores)) : Option ForwardResult :=
  match imageLoop L nms sortFn images [] 0 with
  | none => none
  | some (all_indices, num_kept) =>
    let top_shape : List Int := [1, 1] ++ [1] ++ [1]
    let top_data : List ℚ := if num_kept = 0 then [-1] else [0]
    match outputLoop L images all_indices with
    | none => none
    | some files =>
      some
        { all_indices := all_indices
          num_kept := num_kept
          top_shape := top_shape
          top_data := top_data
          files := files }

/-! ### Vocabulary of the statements -/

/-- The number of indices stored in a map, summed over its classes. -/
def totalCount (m : IndexMap) : Nat :=
  (m.map (fun e => e.2.length)).sum

/-- The total number of indices stored in the maps of a batch. -/
def batchCount (ms : List IndexMap) : Nat :=
  (ms.map totalCount).sum

/-- The (label, index) entries of a map in the order in which the loop of
lines 268-309 visits them: by class, then along the index vector. -/
def emitOrder (m : IndexMap) : List (Int × Int) :=
  m.flatMap (fun e => e.2.map (fun idx => (e.1, idx)))

/-- The score `conf_scores[label][idx]` of an entry. -/
def scoreOf (conf_scores : ConfScores) (e : Int × Int) : Option Score :=
  match conf_scores.lookup e.1 with
  | none => none
  | some scores => vecAt scores e.2

/-- The result of `ApplyNMSFastR` for class `c` of an image. -/
def nmsResult (L : Layer) (nms : NMS) (decode_rboxes : LabelRBox) (conf_scores : ConfScores)
    (c : Int) : List Int :=
  match conf_scores.lookup c, decode_rboxes.lookup (if L.share_location_ then -1 else c) with
  | some scores, some rboxes =>
    nms rboxes scores L.confidence_threshold_ L.nms_threshold_ L.eta_ L.top_k_
  | _, _ => []

/-- The per-class results of `ApplyNMSFastR` for the classes `cs` but the
background class, as a map from the class to its index vector. -/
def nmsOutputs (L : Layer) (nms : NMS) (decode_rboxes : LabelRBox) (conf_scores : ConfScores)
    (cs : List Int) : IndexMap :=
  (cs.filter (fun c => decide (c ≠ L.background_label_id_))).map
    (fun c => (c, nmsResult L nms decode_rboxes conf_scores c))

/-- The survivors of the per-class NMS of an image, as (label, index) entries
over all classes but the background. -/
def survivors (L : Layer) (nms : NMS) (decode_rboxes : LabelRBox) (conf_scores : ConfScores) :
    List (Int × Int) :=
  emitOrder (nmsOutputs L nms decode_rboxes conf_scores (classRange L.num_classes_))

/-- The keys of a map are strictly ascending, as `std::map` keeps them. -/
def KeysSorted (m : IndexMap) : Prop :=
  m.Pairwise (fun a b => a.1 < b.1)

/-- The index vector stored for class `c`, empty when the class is no key. -/
def classList (m : IndexMap) (c : Int) : List Int :=
  (m.lookup c).getD []

/-- The input of an image is well formed: every class but the background has
a confidence vector and a box vector, and every index that `ApplyNMSFastR`
returns for the class is a position of both vectors. -/
def WellFormed (L : Layer) (nms : NMS) (img : LabelRBox × ConfScores) : Prop :=
  ∀ c ∈ classRange L.num_classes_, c ≠ L.background_label_id_ →
    ∃ scores rboxes, List.lookup c img.2 = some scores ∧
      List.lookup (if L.share_location_ then (-1 : Int) else c) img.1 = some rboxes ∧
      ∀ idx ∈ nms rboxes scores L.confidence_threshold_ L.nms_threshold_ L.eta_ L.top_k_,
        0 ≤ idx ∧ idx.toNat < scores.length ∧ idx.toNat < rboxes.length

/-! ### Test data -/

/-- A box used in the examples. -/
def box0 : NormalizedRBox :=
  { xcenter := 1 / 2, ycenter := 1 / 2, width := 1 / 10, height := 1 / 10, angle := 0 }

/-- A second box, apart from `box0`. -/
def box1 : NormalizedRBox :=
  { xcenter := 1 / 5, ycenter := 1 / 5, width := 1 / 10, height := 1 / 10, angle := 0 }

/-- An NMS that suppresses nothing: the indices whose score reaches the
confidence threshold, in index order.  This is what the greedy NMS returns for
boxes that do not overlap when the scores are listed in descending order. -/
def nmsKeepAll : NMS := fun _ scores confidence_threshold _ _ _ =>
  ((List.range scores.length).filter
    (fun i => decide (confidence_threshold ≤ scores.getD i 0))).map Int.ofNat

/-- A parameter message: three classes, class 0 the background, shared
locations, confidence threshold `0.5`. -/
def param0 (keep_top_k : Int) (regress_size regress_angle : Bool) (output_directory : String) :
    RDetectionOutputParameter :=
  { num_classes := some 3
    prior_width := some 30
    prior_height := some 30
    regress_size := regress_size
    regress_angle := regress_angle
    share_location := true
    background_label_id := 0
    code_type := 0
    variance_encoded_in_target := false
    keep_top_k := keep_top_k
    confidence_threshold := some (1 / 2)
    nms_threshold := 3 / 10
    eta := 1
    top_k := none
    output_directory := output_directory }

/-- The layer that `LayerSetUp` and `Reshape` make of `param0` without size and
angle regression, for two priors. -/
def layer0 (keep_top_k : Int) (need_save : Bool) : Layer :=
  { regress_size_ := false
    regress_angle_ := false
    prior_width_ := 30
    prior_height_ := 30
    num_param_ := 2
    num_classes_ := 3
    share_location_ := true
    num_loc_classes_ := 1
    background_label_id_ := 0
    code_type_ := 0
    variance_encoded_in_target_ := false
    keep_top_k_ := keep_top_k
    confidence_threshold_ := 1 / 2
    nms_threshold_ := 3 / 10
    eta_ := 1
    top_k_ := -1
    need_save_ := need_save
    name_count_ := 0
    num_priors_ := 2 }

/-- An image with two priors: class 1 keeps score `0.6`, class 2 keeps score
`0.95`, both at prior 0. -/
def image0 : LabelRBox × ConfScores :=
  ([(-1, [box0, box1])], [(0, [1 / 10, 9 / 10]), (1, [3 / 5, 1 / 10]), (2, [19 / 20, 1 / 5])])

/-- An image with two priors and every score of classes 1 and 2 below the
confidence threshold. -/
def imageEmpty : LabelRBox × ConfScores :=
  ([(-1, [box0, box1])], [(0, [9 / 10, 9 / 10]), (1, [1 / 10, 1 / 10]), (2, [1 / 5, 1 / 5])])

/-- An image with two priors: class 1 keeps score `0.7`, class 2 keeps scores
`0.95` and `0.6`. -/
def image2 : LabelRBox × ConfScores :=
  ([(-1, [box0, box1])], [(0, [1 / 10, 1 / 10]), (1, [7 / 10, 1 / 10]), (2, [19 / 20, 3 / 5])])

/-- The result of `Forward_cpu` on `[image0]` with `keep_top_k = 1`. -/
def resultCap : ForwardResult :=
  { all_indices := [[(2, [0])]]
    num_kept := 1
    top_shape := [1, 1, 1, 1]
    top_data := [0]
    files := [[lineOf 2 box0]] }

/-- The result of `Forward_cpu` on `[image0, imageEmpty]` with `keep_top_k = -1`. -/
def resultPass : ForwardResult :=
  { all_indices := [[(1, [0]), (2, [0])], [(1, []), (2, [])]]
    num_kept := 2
    top_shape := [1, 1, 1, 1]
    top_data := [0]
    files := [[lineOf 1 box0, lineOf 2 box0], []] }

/-- The result of `Forward_cpu` on `[imageEmpty, imageEmpty]` with `keep_top_k = 5`. -/
def resultEmpty : ForwardResult :=
  { all_indices := [[(1, []), (2, [])], [(1, []), (2, [])]]
    num_kept := 0
    top_shape := [1, 1, 1, 1]
    top_data := [-1]
    files := [[], []] }

/-- The result of `Forward_cpu` on `[image2]` with `keep_top_k = 2`, no file. -/
def resultOrder : ForwardResult :=
  { all_indices := [[(1, [0]), (2, [0])]]
    num_kept := 2
    top_shape := [1, 1, 1, 1]
    top_data := [0]
    files := [[]] }

/-! ### The map operations -/

theorem totalCount_eq_length (m : IndexMap) : totalCount m = (emitOrder m).length := by
  induction m with
  | nil => rfl
  | cons e m ih =>
    simp only [totalCount, emitOrder, List.map_cons, List.sum_cons, List.flatMap_cons,
      List.length_append, List.length_map] at ih ⊢
    rw [ih]

theorem totalCount_append (m₁ m₂ : IndexMap) :
    totalCount (m₁ ++ m₂) = totalCount m₁ + totalCount m₂ := by
  simp [totalCount]

theorem emitOrder_append (m₁ m₂ : IndexMap) :
    emitOrder (m₁ ++ m₂) = emitOrder m₁ ++ emitOrder m₂ := by
  simp [emitOrder]

theorem mapModify_of_lt (m : IndexMap) (k : Int) (f : List Int → List Int)
    (h : ∀ e ∈ m, e.1 < k) : mapModify m k f = m ++ [(k, f [])] := by
  induction m with
  | nil => rfl
  | cons e m ih =>
    obtain ⟨k', v⟩ := e
    have hk : k' < k := h (k', v) (List.mem_cons_self _ _)
    have h1 : ¬ k = k' := by omega
    have h2 : ¬ k < k' := by omega
    simp only [mapModify, h1, h2, if_false, List.cons_append]
    rw [ih (fun e he => h e (List.mem_cons_of_mem _ he))]

theorem emitOrder_push_perm (m : IndexMap) (k v : Int) :
    (emitOrder (mapModify m k (fun l => l ++ [v]))).Perm (emitOrder m ++ [(k, v)]) := by
  induction m with
  | nil => simp [mapModify, emitOrder]
  | cons e m ih =>
    obtain ⟨k', l⟩ := e
    unfold mapModify
    split_ifs with h1 h2
    · subst h1
      simp only [emitOrder, List.flatMap_cons, List.map_append, List.map_cons, List.map_nil,
        List.append_assoc]
      exact List.Perm.append_left _ List.perm_append_comm
    · simp only [emitOrder, List.flatMap_cons, List.nil_append, List.map_cons, List.map_nil,
        List.singleton_append]
      exact List.perm_append_singleton _ _ |>.symm
    · have := List.Perm.append_left (l.map (fun idx => (k', idx))) ih
      simpa [emitOrder, List.append_assoc] using this

theorem emitOrder_foldl_perm (pairs : List ScoreIndexPair) (m : IndexMap) :
    (emitOrder (pairs.foldl (fun m p => mapModify m p.2.1 (fun v => v ++ [p.2.2])) m)).Perm
      (emitOrder m ++ pairs.map (fun p => p.2)) := by
  induction pairs generalizing m with
  | nil => simp
  | cons p pairs ih =>
    simp only [List.foldl_cons, List.map_cons]
    refine (ih _).trans ?_
    have := (emitOrder_push_perm m p.2.1 p.2.2).append_right (pairs.map (fun p => p.2))
    simpa [List.append_assoc] using this

theorem emitOrder_regroup_perm (pairs : List ScoreIndexPair) :
    (emitOrder (regroup pairs)).Perm (pairs.map (fun p => p.2)) := by
  simpa [regroup, emitOrder] using emitOrder_foldl_perm pairs []

theorem totalCount_regroup (pairs : List ScoreIndexPair) :
    totalCount (regroup pairs) = pairs.length := by
  rw [totalCount_eq_length, (emitOrder_regroup_perm pairs).length_eq, List.length_map]

theorem mem_emitOrder {m : IndexMap} {c idx : Int} :
    (c, idx) ∈ emitOrder m ↔ ∃ l, (c, l) ∈ m ∧ idx ∈ l := by
  constructor
  · intro h
    simp only [emitOrder, List.mem_flatMap, List.mem_map] at h
    obtain ⟨e, he, i, hi, heq⟩ := h
    obtain ⟨k, l⟩ := e
    simp only [Prod.mk.injEq] at heq
    obtain ⟨rfl, rfl⟩ := heq
    exact ⟨l, he, hi⟩
  · rintro ⟨l, hl, hi⟩
    simp only [emitOrder, List.mem_flatMap, List.mem_map]
    exact ⟨(c, l), hl, idx, hi, rfl⟩

theorem mapModify_keys (m : IndexMap) (k : Int) (f : List Int → List Int) :
    ∀ e ∈ mapModify m k f, e.1 = k ∨ ∃ e' ∈ m, e'.1 = e.1 := by
  induction m with
  | nil =>
    intro e he
    simp only [mapModify, List.mem_singleton] at he
    exact Or.inl (by rw [he])
  | cons a m ih =>
    obtain ⟨k', v⟩ := a
    intro e he
    unfold mapModify at he
    split_ifs at he with h1 h2
    · rcases List.mem_cons.1 he with rfl | h
      · exact Or.inl h1.symm
      · exact Or.inr ⟨e, List.mem_cons_of_mem _ h, rfl⟩
    · rcases List.mem_cons.1 he with rfl | h
      · exact Or.inl rfl
      · exact Or.inr ⟨e, h, rfl⟩
    · rcases List.mem_cons.1 he with rfl | h
      · exact Or.inr ⟨_, List.mem_cons_self _ _, rfl⟩
      · rcases ih e h with h' | ⟨e', he', h'⟩
        · exact Or.inl h'
        · exact Or.inr ⟨e', List.mem_cons_of_mem _ he', h'⟩

theorem mapModify_sorted (m : IndexMap) (k : Int) (f : List Int → List Int)
    (h : KeysSorted m) : KeysSorted (mapModify m k f) := by
  induction m with
  | nil => simp [mapModify, KeysSorted]
  | cons a m ih =>
    obtain ⟨k', v⟩ := a
    unfold KeysSorted at h ih ⊢
    rw [List.pairwise_cons] at h
    unfold mapModify
    split_ifs with h1 h2
    · exact List.pairwise_cons.2 ⟨h.1, h.2⟩
    · refine List.pairwise_cons.2 ⟨?_, List.pairwise_cons.2 ⟨h.1, h.2⟩⟩
      intro e he
      rcases List.mem_cons.1 he with rfl | he
      · exact h2
      · exact lt_trans h2 (h.1 e he)
    · refine List.pairwise_cons.2 ⟨?_, ih h.2⟩
      intro e he
      rcases mapModify_keys m k f e he with h' | ⟨e', he', h'⟩
      · rw [h']
        show k' < k
        omega
      · rw [← h']
        exact h.1 e' he'

theorem regroup_sorted (pairs : List ScoreIndexPair) : KeysSorted (regroup pairs) := by
  have key : ∀ (l : List ScoreIndexPair) (m : IndexMap), KeysSorted m →
      KeysSorted (l.foldl (fun m p => mapModify m p.2.1 (fun v => v ++ [p.2.2])) m) := by
    intro l
    induction l with
    | nil => intro m hm; exact hm
    | cons p l ih => intro m hm; exact ih _ (mapModify_sorted m _ _ hm)
  exact key pairs [] List.Pairwise.nil

theorem lookup_of_mem_sorted {m : IndexMap} (h : KeysSorted m) {c : Int} {l : List Int}
    (hm : (c, l) ∈ m) : m.lookup c = some l := by
  induction m with
  | nil => cases hm
  | cons a m ih =>
    obtain ⟨k, v⟩ := a
    unfold KeysSorted at h ih
    rw [List.pairwise_cons] at h
    rcases List.mem_cons.1 hm with heq | hm'
    · simp only [Prod.mk.injEq] at heq
      obtain ⟨rfl, rfl⟩ := heq
      simp
    · have hlt : k < c := h.1 (c, l) hm'
      have hne : (c == k) = false := by
        simp only [beq_eq_false_iff_ne, ne_eq]
        omega
      rw [List.lookup_cons, hne]
      exact ih h.2 hm'

theorem lookup_none_of_lt {m : IndexMap} {c : Int} (h : ∀ e ∈ m, c < e.1) :
    m.lookup c = none := by
  induction m with
  | nil => rfl
  | cons a m ih =>
    obtain ⟨k, v⟩ := a
    have hlt : c < k := h (k, v) (List.mem_cons_self _ _)
    have hne : (c == k) = false := by
      simp only [beq_eq_false_iff_ne, ne_eq]
      omega
    rw [List.lookup_cons, hne]
    exact ih (fun e he => h e (List.mem_cons_of_mem _ he))

theorem classList_push (m : IndexMap) (h : KeysSorted m) (k v c : Int) :
    classList (mapModify m k (fun l => l ++ [v])) c =
      if c = k then classList m c ++ [v] else classList m c := by
  induction m with
  | nil =>
    by_cases hc : c = k
    · subst hc
      simp [mapModify, classList]
    · have hne : (c == k) = false := by simpa using hc
      simp [mapModify, classList, List.lookup_cons, hne, hc]
  | cons a m ih =>
    obtain ⟨k', l⟩ := a
    unfold KeysSorted at h ih
    rw [List.pairwise_cons] at h
    have ih' := ih h.2
    by_cases hk : k = k'
    · subst hk
      by_cases hc : c = k
      · subst hc
        simp [mapModify, classList]
      · have hne : (c == k) = false := by simpa using hc
        simp [mapModify, classList, List.lookup_cons, hne, hc]
    · by_cases hlt : k < k'
      · have hmm : mapModify ((k', l) :: m) k (fun l => l ++ [v]) = (k, [v]) :: (k', l) :: m := by
          simp [mapModify, hk, hlt]
        rw [hmm]
        by_cases hc : c = k
        · subst hc
          have hnone : List.lookup c ((k', l) :: m) = none := by
            apply lookup_none_of_lt
            intro e he
            rcases List.mem_cons.1 he with rfl | he
            · exact hlt
            · exact lt_trans hlt (h.1 e he)
          simp [classList, hnone]
        · have hne : (c == k) = false := by simpa using hc
          simp only [classList, if_neg hc]
          rw [List.lookup_cons, hne]
      · have hmm : mapModify ((k', l) :: m) k (fun l => l ++ [v]) =
            (k', l) :: mapModify m k (fun l => l ++ [v]) := by
          simp [mapModify, hk, hlt]
        rw [hmm]
        by_cases hck : c = k'
        · subst hck
          have hne : ¬ c = k := fun h => hk h.symm
          simp [classList, hne]
        · have hne : (c == k') = false := by simpa using hck
          simp only [classList] at ih' ⊢
          rw [List.lookup_cons, hne, List.lookup_cons, hne]
          exact ih'

theorem classList_foldl (pairs : List ScoreIndexPair) (m : IndexMap) (h : KeysSorted m) (c : Int) :
    classList (pairs.foldl (fun m p => mapModify m p.2.1 (fun v => v ++ [p.2.2])) m) c =
      classList m c ++ (pairs.filter (fun p => decide (p.2.1 = c))).map (fun p => p.2.2) := by
  induction pairs generalizing m with
  | nil => simp
  | cons p pairs ih =>
    rw [List.foldl_cons, ih _ (mapModify_sorted m _ _ h), classList_push m h]
    by_cases hc : p.2.1 = c
    · rw [if_pos hc.symm]
      simp [List.filter_cons, hc]
    · rw [if_neg (fun h => hc h.symm)]
      simp [List.filter_cons, hc]

theorem regroup_entry {pairs : List ScoreIndexPair} {c : Int} {l : List Int}
    (h : (c, l) ∈ regroup pairs) :
    l = (pairs.filter (fun p => decide (p.2.1 = c))).map (fun p => p.2.2) := by
  have h1 := lookup_of_mem_sorted (regroup_sorted pairs) h
  have h2 := classList_foldl pairs [] List.Pairwise.nil c
  simp only [classList, List.lookup_nil, Option.getD_none, List.nil_append] at h2
  have h3 : (List.lookup c (regroup pairs)).getD [] = l := by rw [h1]; rfl
  rw [← h3]
  exact h2

/-! ### The loops of `Forward_cpu` -/

theorem classRange_sorted (n : Int) : (classRange n).Pairwise (fun a b => a < b) := by
  unfold classRange
  rw [List.pairwise_map]
  refine (List.pairwise_lt_range _).imp ?_
  intro a b hab
  exact Int.ofNat_lt.2 hab

theorem classLoop_spec (L : Layer) (nms : NMS) (d : LabelRBox) (s : ConfScores) :
    ∀ (cs : List Int) (acc : IndexMap) (n : Int) (m : IndexMap) (n' : Int),
      cs.Pairwise (fun a b => a < b) → (∀ e ∈ acc, ∀ c ∈ cs, e.1 < c) →
      classLoop L nms d s cs acc n = some (m, n') →
      m = acc ++ nmsOutputs L nms d s cs ∧ n' = n + (totalCount (nmsOutputs L nms d s cs) : Int) := by
  intro cs
  induction cs with
  | nil =>
    intro acc n m n' _ _ h
    simp only [classLoop, Option.some.injEq, Prod.mk.injEq] at h
    simp [nmsOutputs, totalCount, h.1.symm, h.2.symm]
  | cons c cs ih =>
    intro acc n m n' hs hacc h
    rw [List.pairwise_cons] at hs
    have hacc' : ∀ e ∈ acc, ∀ c' ∈ cs, e.1 < c' :=
      fun e he c' hc' => hacc e he c' (List.mem_cons_of_mem _ hc')
    unfold classLoop at h
    by_cases hb : c = L.background_label_id_
    · rw [if_pos hb] at h
      have := ih acc n m n' hs.2 hacc' h
      simpa [nmsOutputs, List.filter_cons, hb] using this
    · rw [if_neg hb] at h
      cases hsc : List.lookup c s with
      | none => simp [hsc] at h
      | some scores =>
        cases hdc : List.lookup (if L.share_location_ then (-1 : Int) else c) d with
        | none => simp [hsc, hdc] at h
        | some rboxes =>
          simp only [hsc, hdc] at h
          have hres : nmsResult L nms d s c =
              nms rboxes scores L.confidence_threshold_ L.nms_threshold_ L.eta_ L.top_k_ := by
            simp only [nmsResult, hsc, hdc]
          rw [mapModify_of_lt acc c _ (fun e he => hacc e he c (List.mem_cons_self _ _))] at h
          have hacc2 : ∀ e ∈ acc ++ [(c, nms rboxes scores L.confidence_threshold_
              L.nms_threshold_ L.eta_ L.top_k_)], ∀ c' ∈ cs, e.1 < c' := by
            intro e he c' hc'
            rcases List.mem_append.1 he with he | he
            · exact hacc' e he c' hc'
            · rw [List.mem_singleton] at he
              rw [he]
              exact hs.1 c' hc'
          obtain ⟨h1, h2⟩ := ih _ _ m n' hs.2 hacc2 h
          have hout : nmsOutputs L nms d s (c :: cs) =
              (c, nms rboxes scores L.confidence_threshold_ L.nms_threshold_ L.eta_ L.top_k_) ::
                nmsOutputs L nms d s cs := by
            simp [nmsOutputs, List.filter_cons, hb, hres]
          rw [hout]
          refine ⟨by simpa using h1, ?_⟩
          rw [h2]
          simp only [totalCount, List.map_cons, List.sum_cons, Nat.cast_add]
          ring

theorem pairsOfLabel_spec (label : Int) (scores : List Score) :
    ∀ (l : List Int) (ps : List ScoreIndexPair), pairsOfLabel label scores l = some ps →
      ps.map (fun p => p.2) = l.map (fun idx => (label, idx)) ∧
        ∀ p ∈ ps, p.2.1 = label ∧ vecAt scores p.2.2 = some p.1 := by
  intro l
  induction l with
  | nil =>
    intro ps h
    simp only [pairsOfLabel, Option.some.injEq] at h
    subst h
    simp
  | cons idx l ih =>
    intro ps h
    unfold pairsOfLabel at h
    cases hv : vecAt scores idx with
    | none => simp [hv] at h
    | some sc =>
      cases hr : pairsOfLabel label scores l with
      | none => simp [hv, hr] at h
      | some qs =>
        simp only [hv, hr, Option.some.injEq] at h
        subst h
        obtain ⟨h1, h2⟩ := ih qs hr
        refine ⟨by simp [h1], ?_⟩
        intro p hp
        rcases List.mem_cons.1 hp with rfl | hp
        · exact ⟨rfl, hv⟩
        · exact h2 p hp

theorem collectPairs_spec (s : ConfScores) :
    ∀ (m : IndexMap) (ps : List ScoreIndexPair), collectPairs s m = some ps →
      ps.map (fun p => p.2) = emitOrder m ∧ ∀ p ∈ ps, scoreOf s p.2 = some p.1 := by
  intro m
  induction m with
  | nil =>
    intro ps h
    simp only [collectPairs, Option.some.injEq] at h
    subst h
    simp [emitOrder]
  | cons e m ih =>
    obtain ⟨label, label_indices⟩ := e
    intro ps h
    unfold collectPairs at h
    cases hsc : List.lookup label s with
    | none => simp [hsc] at h
    | some scores =>
      cases ha : pairsOfLabel label scores label_indices with
      | none => simp [hsc, ha] at h
      | some a =>
        cases hb : collectPairs s m with
        | none => simp [hsc, ha, hb] at h
        | some b =>
          simp only [hsc, ha, hb, Option.some.injEq] at h
          subst h
          obtain ⟨a1, a2⟩ := pairsOfLabel_spec label scores label_indices a ha
          obtain ⟨b1, b2⟩ := ih b hb
          refine ⟨?_, ?_⟩
          · rw [List.map_append, a1, b1]
            rfl
          · intro p hp
            rcases List.mem_append.1 hp with hp | hp
            · obtain ⟨e1, e2⟩ := a2 p hp
              simp only [scoreOf, e1, hsc]
              exact e2
            · exact b2 p hp

theorem resize_of_le (v : List ScoreIndexPair) (n : Nat) (h : n ≤ v.length) :
    resize v n = v.take n := by
  simp [resize, Nat.sub_eq_zero_of_le h]

theorem classLoop_top (L : Layer) (nms : NMS) (d : LabelRBox) (s : ConfScores)
    (m : IndexMap) (n : Int)
    (h : classLoop L nms d s (classRange L.num_classes_) [] 0 = some (m, n)) :
    m = nmsOutputs L nms d s (classRange L.num_classes_) ∧
      n = ((survivors L nms d s).length : Int) := by
  obtain ⟨h1, h2⟩ := classLoop_spec L nms d s _ [] 0 m n (classRange_sorted _)
    (fun e he => by cases he) h
  refine ⟨by simpa using h1, ?_⟩
  rw [h2, survivors, totalCount_eq_length]
  simp

theorem selectImage_pass (L : Layer) (nms : NMS) (sortFn : List ScoreIndexPair → List ScoreIndexPair)
    (d : LabelRBox) (s : ConfScores) (m : IndexMap) (k : Int)
    (h : selectImage L nms sortFn d s = some (m, k))
    (hc : ¬ (L.keep_top_k_ > -1 ∧ ((survivors L nms d s).length : Int) > L.keep_top_k_)) :
    m = nmsOutputs L nms d s (classRange L.num_classes_) ∧
      k = ((survivors L nms d s).length : Int) := by
  unfold selectImage at h
  cases hcl : classLoop L nms d s (classRange L.num_classes_) [] 0 with
  | none => simp [hcl] at h
  | some r =>
    obtain ⟨indices, num_det⟩ := r
    obtain ⟨h1, h2⟩ := classLoop_top L nms d s indices num_det hcl
    simp only [hcl] at h
    rw [h2] at h
    rw [if_neg hc] at h
    simp only [Option.some.injEq, Prod.mk.injEq] at h
    exact ⟨by rw [← h.1, h1], h.2.symm⟩

theorem selectImage_cap (L : Layer) (nms : NMS) (sortFn : List ScoreIndexPair → List ScoreIndexPair)
    (hs : IsStdSort sortFn) (d : LabelRBox) (s : ConfScores) (m : IndexMap) (k : Int)
    (h : selectImage L nms sortFn d s = some (m, k))
    (h0 : L.keep_top_k_ > -1) (h1 : ((survivors L nms d s).length : Int) > L.keep_top_k_) :
    ∃ ps, collectPairs s (nmsOutputs L nms d s (classRange L.num_classes_)) = some ps ∧
      m = regroup ((sortFn ps).take L.keep_top_k_.toNat) ∧ k = L.keep_top_k_ ∧
      L.keep_top_k_.toNat < (sortFn ps).length := by
  unfold selectImage at h
  cases hcl : classLoop L nms d s (classRange L.num_classes_) [] 0 with
  | none => simp [hcl] at h
  | some r =>
    obtain ⟨indices, num_det⟩ := r
    obtain ⟨e1, e2⟩ := classLoop_top L nms d s indices num_det hcl
    simp only [hcl] at h
    rw [e2] at h
    rw [if_pos ⟨h0, h1⟩] at h
    cases hcp : collectPairs s indices with
    | none => simp [hcp] at h
    | some ps =>
      simp only [hcp, Option.some.injEq, Prod.mk.injEq] at h
      have hlen : (sortFn ps).length = (survivors L nms d s).length := by
        rw [(hs ps).1.length_eq]
        have := congrArg List.length (collectPairs_spec s indices ps hcp).1
        rw [List.length_map] at this
        rw [this, survivors, e1]
      have hk : L.keep_top_k_.toNat < (sortFn ps).length := by
        rw [hlen]
        omega
      refine ⟨ps, by rw [← e1]; exact hcp, ?_, h.2.symm, hk⟩
      rw [← h.1, resize_of_le _ _ (le_of_lt hk)]

theorem selectImage_count (L : Layer) (nms : NMS)
    (sortFn : List ScoreIndexPair → List ScoreIndexPair) (hs : IsStdSort sortFn)
    (d : LabelRBox) (s : ConfScores) (m : IndexMap) (k : Int)
    (h : selectImage L nms sortFn d s = some (m, k)) : k = (totalCount m : Int) := by
  by_cases hc : L.keep_top_k_ > -1 ∧ ((survivors L nms d s).length : Int) > L.keep_top_k_
  · obtain ⟨ps, _, hm, hk, hlt⟩ := selectImage_cap L nms sortFn hs d s m k h hc.1 hc.2
    rw [hm, totalCount_regroup, List.length_take, hk, Nat.min_eq_left (le_of_lt hlt)]
    omega
  · obtain ⟨hm, hk⟩ := selectImage_pass L nms sortFn d s m k h hc
    rw [hk, hm, survivors, totalCount_eq_length]

theorem imageLoop_spec (L : Layer) (nms : NMS)
    (sortFn : List ScoreIndexPair → List ScoreIndexPair) (hs : IsStdSort sortFn) :
    ∀ (imgs : List (LabelRBox × ConfScores)) (acc : List IndexMap) (nk : Int)
      (all : List IndexMap) (nk' : Int),
      imageLoop L nms sortFn imgs acc nk = some (all, nk') →
      ∃ ms, all = acc ++ ms ∧
        List.Forall₂ (fun img m => ∃ k, selectImage L nms sortFn img.1 img.2 = some (m, k))
          imgs ms ∧
        nk' = nk + (batchCount ms : Int) := by
  intro imgs
  induction imgs with
  | nil =>
    intro acc nk all nk' h
    simp only [imageLoop, Option.some.injEq, Prod.mk.injEq] at h
    exact ⟨[], by simp [h.1.symm], List.Forall₂.nil, by simp [batchCount, h.2.symm]⟩
  | cons img imgs ih =>
    intro acc nk all nk' h
    unfold imageLoop at h
    cases hsel : selectImage L nms sortFn img.1 img.2 with
    | none => simp [hsel] at h
    | some r =>
      obtain ⟨indices, kept⟩ := r
      simp only [hsel] at h
      obtain ⟨ms, h1, h2, h3⟩ := ih _ _ all nk' h
      refine ⟨indices :: ms, by simp [h1], List.Forall₂.cons ⟨kept, hsel⟩ h2, ?_⟩
      rw [h3, selectImage_count L nms sortFn hs img.1 img.2 indices kept hsel]
      simp only [batchCount, List.map_cons, List.sum_cons, Nat.cast_add]
      ring

theorem Forward_cpu_spec (L : Layer) (nms : NMS)
    (sortFn : List ScoreIndexPair → List ScoreIndexPair) (hs : IsStdSort sortFn)
    (images : List (LabelRBox × ConfScores)) (out : ForwardResult)
    (h : Forward_cpu L nms sortFn images = some out) :
    List.Forall₂ (fun img m => ∃ k, selectImage L nms sortFn img.1 img.2 = some (m, k))
        images out.all_indices ∧
      out.num_kept = (batchCount out.all_indices : Int) ∧
      out.top_data = (if out.num_kept = 0 then [-1] else [0]) ∧
      out.top_shape = [1, 1, 1, 1] ∧
      outputLoop L images out.all_indices = some out.files := by
  unfold Forward_cpu at h
  cases hl : imageLoop L nms sortFn images [] 0 with
  | none => simp [hl] at h
  | some r =>
    obtain ⟨all, nk⟩ := r
    simp only [hl] at h
    cases ho : outputLoop L images all with
    | none => simp [ho] at h
    | some files =>
      simp only [ho, Option.some.injEq] at h
      subst h
      obtain ⟨ms, h1, h2, h3⟩ := imageLoop_spec L nms sortFn hs images [] 0 all nk hl
      simp only [List.nil_append] at h1
      subst h1
      exact ⟨h2, by simpa using h3, rfl, rfl, ho⟩

theorem sortDescend_isStdSort : IsStdSort sortDescend := by
  intro v
  refine ⟨List.perm_insertionSort _ v, ?_⟩
  have hsorted : (sortDescend v).Pairwise (fun a b => b.1 ≤ a.1) := by
    have : IsTotal ScoreIndexPair (fun a b => b.1 ≤ a.1) := ⟨fun a b => le_total b.1 a.1⟩
    have : IsTrans ScoreIndexPair (fun a b => b.1 ≤ a.1) :=
      ⟨fun a b c hab hbc => le_trans hbc hab⟩
    exact List.sorted_insertionSort (fun a b : ScoreIndexPair => b.1 ≤ a.1) v
  refine hsorted.imp ?_
  intro a b hab
  simp only [SortScorePairDescend, gt_iff_lt, decide_eq_false_iff_not, not_lt]
  exact hab

theorem Forward_cpu_image (L : Layer) (nms : NMS)
    (sortFn : List ScoreIndexPair → List ScoreIndexPair) (hs : IsStdSort sortFn)
    (images : List (LabelRBox × ConfScores)) (out : ForwardResult)
    (h : Forward_cpu L nms sortFn images = some out)
    (img : LabelRBox × ConfScores) (m : IndexMap)
    (hm : (img, m) ∈ images.zip out.all_indices) :
    ∃ k, selectImage L nms sortFn img.1 img.2 = some (m, k) :=
  List.forall₂_zip (Forward_cpu_spec L nms sortFn hs images out h).1 hm

theorem mem_nmsOutputs {L : Layer} {nms : NMS} {d : LabelRBox} {s : ConfScores}
    {cs : List Int} {c : Int} {l : List Int} (h : (c, l) ∈ nmsOutputs L nms d s cs) :
    c ∈ cs ∧ c ≠ L.background_label_id_ ∧ l = nmsResult L nms d s c := by
  simp only [nmsOutputs, List.mem_map, List.mem_filter, decide_eq_true_eq, Prod.mk.injEq] at h
  obtain ⟨c', ⟨h1, h2⟩, rfl, rfl⟩ := h
  exact ⟨h1, h2, rfl⟩

theorem mem_survivors {L : Layer} {nms : NMS} {d : LabelRBox} {s : ConfScores}
    {c idx : Int} (h : (c, idx) ∈ survivors L nms d s) :
    c ∈ classRange L.num_classes_ ∧ c ≠ L.background_label_id_ ∧
      idx ∈ nmsResult L nms d s c := by
  obtain ⟨l, hl, hi⟩ := mem_emitOrder.1 h
  obtain ⟨h1, h2, rfl⟩ := mem_nmsOutputs hl
  exact ⟨h1, h2, hi⟩

theorem foldl_keys (pairs : List ScoreIndexPair) :
    ∀ (m : IndexMap),
      ∀ e ∈ pairs.foldl (fun m p => mapModify m p.2.1 (fun v => v ++ [p.2.2])) m,
        (∃ e' ∈ m, e'.1 = e.1) ∨ ∃ p ∈ pairs, p.2.1 = e.1 := by
  induction pairs with
  | nil =>
    intro m e he
    exact Or.inl ⟨e, he, rfl⟩
  | cons p pairs ih =>
    intro m e he
    rw [List.foldl_cons] at he
    rcases ih _ e he with ⟨e', he', h'⟩ | ⟨q, hq, h'⟩
    · rcases mapModify_keys m _ _ e' he' with h1 | ⟨e'', he'', h1⟩
      · exact Or.inr ⟨p, List.mem_cons_self _ _, by rw [← h1, h']⟩
      · exact Or.inl ⟨e'', he'', by rw [h1, h']⟩
    · exact Or.inr ⟨q, List.mem_cons_of_mem _ hq, h'⟩

theorem regroup_keys {pairs : List ScoreIndexPair} {e : Int × List Int}
    (h : e ∈ regroup pairs) : ∃ p ∈ pairs, p.2.1 = e.1 := by
  rcases foldl_keys pairs [] e h with ⟨e', he', _⟩ | h'
  · cases he'
  · exact h'

theorem totalCount_eq_zero_iff (m : IndexMap) : totalCount m = 0 ↔ ∀ e ∈ m, e.2 = [] := by
  induction m with
  | nil => simp [totalCount]
  | cons a m ih =>
    have hcons : totalCount (a :: m) = a.2.length + totalCount m := by simp [totalCount]
    rw [hcons, Nat.add_eq_zero_iff, ih, List.length_eq_zero]
    simp

theorem batchCount_eq_zero_iff (ms : List IndexMap) :
    batchCount ms = 0 ↔ ∀ m ∈ ms, ∀ e ∈ m, e.2 = [] := by
  induction ms with
  | nil => simp [batchCount]
  | cons a ms ih =>
    have hcons : batchCount (a :: ms) = totalCount a + batchCount ms := by simp [batchCount]
    rw [hcons, Nat.add_eq_zero_iff, ih, totalCount_eq_zero_iff]
    simp

theorem writeLines_length (need_save : Bool) (label : Int) (rboxes : List NormalizedRBox) :
    ∀ (l : List Int) (ls : List OutLine), writeLines need_save label rboxes l = some ls →
      ls.length = if need_save then l.length else 0 := by
  intro l
  induction l with
  | nil =>
    intro ls h
    simp only [writeLines, Option.some.injEq] at h
    subst h
    simp
  | cons idx l ih =>
    intro ls h
    unfold writeLines at h
    cases hn : need_save with
    | false =>
      simp only [hn, Bool.false_eq_true, if_false] at h ⊢
      have := ih ls (by rw [hn]; exact h)
      simpa [hn] using this
    | true =>
      simp only [hn, if_true] at h ⊢
      cases hv : vecAt rboxes idx with
      | none => simp [hv] at h
      | some rbox =>
        cases hr : writeLines true label rboxes l with
        | none => simp [hv, hr] at h
        | some qs =>
          simp only [hv, hr, Option.some.injEq] at h
          subst h
          have := ih qs (by rw [hn]; exact hr)
          simp only [hn, if_true] at this
          simp [this]

theorem resultLoop_length (L : Layer) (d : LabelRBox) (s : ConfScores) :
    ∀ (m : IndexMap) (ls : List OutLine), resultLoop L d s m = some ls →
      ls.length = if L.need_save_ then totalCount m else 0 := by
  intro m
  induction m with
  | nil =>
    intro ls h
    simp only [resultLoop, Option.some.injEq] at h
    subst h
    simp [totalCount]
  | cons e m ih =>
    obtain ⟨label, indices⟩ := e
    intro ls h
    unfold resultLoop at h
    cases hsc : List.lookup label s with
    | none => simp [hsc] at h
    | some scores =>
      cases hdc : List.lookup (if L.share_location_ then (-1 : Int) else label) d with
      | none => simp [hsc, hdc] at h
      | some rboxes =>
        cases ha : writeLines L.need_save_ label rboxes indices with
        | none => simp [hsc, hdc, ha] at h
        | some a =>
          cases hb : resultLoop L d s m with
          | none => simp [hsc, hdc, ha, hb] at h
          | some b =>
            simp only [hsc, hdc, ha, hb, Option.some.injEq] at h
            subst h
            have h1 := writeLines_length _ _ _ indices a ha
            have h2 := ih b hb
            rw [List.length_append, h1, h2]
            cases L.need_save_ <;> simp [totalCount]

theorem outputLoop_lengths (L : Layer) :
    ∀ (imgs : List (LabelRBox × ConfScores)) (ms : List IndexMap) (fs : List (List OutLine)),
      imgs.length = ms.length → outputLoop L imgs ms = some fs →
      fs.map List.length = ms.map (fun m => if L.need_save_ then totalCount m else 0) := by
  intro imgs
  induction imgs with
  | nil =>
    intro ms fs hlen h
    cases ms with
    | nil =>
      simp only [outputLoop, Option.some.injEq] at h
      subst h
      rfl
    | cons m ms => simp at hlen
  | cons img imgs ih =>
    intro ms fs hlen h
    cases ms with
    | nil => simp at hlen
    | cons m ms =>
      unfold outputLoop at h
      cases ha : resultLoop L img.1 img.2 m with
      | none => simp [ha] at h
      | some f =>
        cases hb : outputLoop L imgs ms with
        | none => simp [ha, hb] at h
        | some fs' =>
          simp only [ha, hb, Option.some.injEq] at h
          subst h
          have h1 := resultLoop_length L img.1 img.2 m f ha
          have h2 := ih ms fs' (by simpa using hlen) hb
          simp [h1, h2]

theorem classLoop_defined (L : Layer) (nms : NMS) (d : LabelRBox) (s : ConfScores) :
    ∀ (cs : List Int) (acc : IndexMap) (n : Int) (r : IndexMap × Int),
      classLoop L nms d s cs acc n = some r →
      ∀ c ∈ cs, c ≠ L.background_label_id_ →
        ∃ scores rboxes, List.lookup c s = some scores ∧
          List.lookup (if L.share_location_ then (-1 : Int) else c) d = some rboxes := by
  intro cs
  induction cs with
  | nil => intro acc n r _ c hc; cases hc
  | cons c0 cs ih =>
    intro acc n r h c hc hb
    unfold classLoop at h
    by_cases hb0 : c0 = L.background_label_id_
    · rw [if_pos hb0] at h
      rcases List.mem_cons.1 hc with rfl | hc
      · exact absurd hb0 hb
      · exact ih acc n r h c hc hb
    · rw [if_neg hb0] at h
      cases hsc : List.lookup c0 s with
      | none => simp [hsc] at h
      | some scores =>
        cases hdc : List.lookup (if L.share_location_ then (-1 : Int) else c0) d with
        | none => simp [hsc, hdc] at h
        | some rboxes =>
          simp only [hsc, hdc] at h
          rcases List.mem_cons.1 hc with rfl | hc
          · exact ⟨scores, rboxes, hsc, hdc⟩
          · exact ih _ _ r h c hc hb

theorem selectImage_classLoop (L : Layer) (nms : NMS)
    (sortFn : List ScoreIndexPair → List ScoreIndexPair) (d : LabelRBox) (s : ConfScores)
    (r : IndexMap × Int) (h : selectImage L nms sortFn d s = some r) :
    ∃ r', classLoop L nms d s (classRange L.num_classes_) [] 0 = some r' := by
  unfold selectImage at h
  cases hcl : classLoop L nms d s (classRange L.num_classes_) [] 0 with
  | none => simp [hcl] at h
  | some r' => exact ⟨r', rfl⟩

theorem nmsOutputs_sorted (L : Layer) (nms : NMS) (d : LabelRBox) (s : ConfScores)
    (cs : List Int) (h : cs.Pairwise (fun a b => a < b)) :
    KeysSorted (nmsOutputs L nms d s cs) := by
  unfold KeysSorted nmsOutputs
  rw [List.pairwise_map]
  exact h.filter _

/-- The layer `layer0` is the one that `LayerSetUp` and `Reshape` make of
`param0` for a prior blob of height 4: without an output directory, and with
one. -/
theorem layer0_setUp (keep_top_k : Int) :
    (LayerSetUp (param0 keep_top_k false false "")).bind
        (fun L => Reshape L ⟨1, 4, 1, 1⟩ ⟨1, 6, 1, 1⟩ ⟨1, 2, 4, 1⟩) =
        some (layer0 keep_top_k false, [1, 1, 1, 1]) ∧
      (LayerSetUp (param0 keep_top_k false false "out")).bind
        (fun L => Reshape L ⟨1, 4, 1, 1⟩ ⟨1, 6, 1, 1⟩ ⟨1, 2, 4, 1⟩) =
        some (layer0 keep_top_k true, [1, 1, 1, 1]) :=
  ⟨by with_unfolding_all rfl, by with_unfolding_all rfl⟩

/-! ### `Forward_cpu` returns on well-formed input -/

theorem vecAt_of_lt {α : Type} (v : List α) (idx : Int) (h0 : 0 ≤ idx)
    (h1 : idx.toNat < v.length) : ∃ x, vecAt v idx = some x := by
  refine ⟨v[idx.toNat], ?_⟩
  simp [vecAt, h0, List.getElem?_eq_getElem h1]

theorem classLoop_isSome (L : Layer) (nms : NMS) (d : LabelRBox) (s : ConfScores) :
    ∀ (cs : List Int) (acc : IndexMap) (n : Int),
      (∀ c ∈ cs, c ≠ L.background_label_id_ →
        ∃ scores rboxes, List.lookup c s = some scores ∧
          List.lookup (if L.share_location_ then (-1 : Int) else c) d = some rboxes) →
      ∃ r, classLoop L nms d s cs acc n = some r := by
  intro cs
  induction cs with
  | nil => intro acc n _; exact ⟨(acc, n), rfl⟩
  | cons c cs ih =>
    intro acc n hw
    have hw' := fun c' hc' => hw c' (List.mem_cons_of_mem _ hc')
    unfold classLoop
    by_cases hb : c = L.background_label_id_
    · rw [if_pos hb]
      exact ih acc n hw'
    · rw [if_neg hb]
      obtain ⟨scores, rboxes, h1, h2⟩ := hw c (List.mem_cons_self _ _) hb
      simp only [h1, h2]
      exact ih _ _ hw'

theorem pairsOfLabel_isSome (label : Int) (scores : List Score) :
    ∀ (l : List Int), (∀ idx ∈ l, ∃ x, vecAt scores idx = some x) →
      ∃ ps, pairsOfLabel label scores l = some ps := by
  intro l
  induction l with
  | nil => intro _; exact ⟨[], rfl⟩
  | cons idx l ih =>
    intro hl
    obtain ⟨x, hx⟩ := hl idx (List.mem_cons_self _ _)
    obtain ⟨ps, hps⟩ := ih (fun i hi => hl i (List.mem_cons_of_mem _ hi))
    exact ⟨(x, (label, idx)) :: ps, by simp [pairsOfLabel, hx, hps]⟩

theorem collectPairs_isSome (s : ConfScores) :
    ∀ (m : IndexMap),
      (∀ e ∈ m, ∃ scores, List.lookup e.1 s = some scores ∧
        ∀ idx ∈ e.2, ∃ x, vecAt scores idx = some x) →
      ∃ ps, collectPairs s m = some ps := by
  intro m
  induction m with
  | nil => intro _; exact ⟨[], rfl⟩
  | cons e m ih =>
    obtain ⟨label, label_indices⟩ := e
    intro hm
    obtain ⟨scores, h1, h2⟩ := hm (label, label_indices) (List.mem_cons_self _ _)
    obtain ⟨a, ha⟩ := pairsOfLabel_isSome label scores label_indices h2
    obtain ⟨b, hb⟩ := ih (fun e he => hm e (List.mem_cons_of_mem _ he))
    exact ⟨a ++ b, by simp [collectPairs, h1, ha, hb]⟩

theorem selectImage_isSome (L : Layer) (nms : NMS)
    (sortFn : List ScoreIndexPair → List ScoreIndexPair)
    (img : LabelRBox × ConfScores) (hw : WellFormed L nms img) :
    ∃ r, selectImage L nms sortFn img.1 img.2 = some r := by
  obtain ⟨r, hr⟩ := classLoop_isSome L nms img.1 img.2 (classRange L.num_classes_) [] 0
    (fun c hc hb => by
      obtain ⟨scores, rboxes, h1, h2, _⟩ := hw c hc hb
      exact ⟨scores, rboxes, h1, h2⟩)
  obtain ⟨indices, num_det⟩ := r
  obtain ⟨e1, _⟩ := classLoop_top L nms img.1 img.2 indices num_det hr
  unfold selectImage
  simp only [hr]
  split_ifs with hc
  · have hcp : ∃ ps, collectPairs img.2 indices = some ps := by
      apply collectPairs_isSome
      intro e he
      obtain ⟨c, l⟩ := e
      rw [e1] at he
      obtain ⟨hc1, hc2, hc3⟩ := mem_nmsOutputs he
      obtain ⟨scores, rboxes, h1, h2, h3⟩ := hw c hc1 hc2
      refine ⟨scores, h1, ?_⟩
      intro idx hidx
      have hidx' : idx ∈ nms rboxes scores L.confidence_threshold_ L.nms_threshold_
          L.eta_ L.top_k_ := by
        have : nmsResult L nms img.1 img.2 c =
            nms rboxes scores L.confidence_threshold_ L.nms_threshold_ L.eta_ L.top_k_ := by
          simp only [nmsResult, h1, h2]
        rw [← this, ← hc3]
        exact hidx
      exact vecAt_of_lt scores idx (h3 idx hidx').1 (h3 idx hidx').2.1
    obtain ⟨ps, hps⟩ := hcp
    simp only [hps]
    exact ⟨_, rfl⟩
  · exact ⟨_, rfl⟩

theorem selectImage_entries (L : Layer) (nms : NMS)
    (sortFn : List ScoreIndexPair → List ScoreIndexPair) (hs : IsStdSort sortFn)
    (d : LabelRBox) (s : ConfScores) (m : IndexMap) (k : Int)
    (h : selectImage L nms sortFn d s = some (m, k)) :
    ∀ e ∈ m, e.1 ∈ classRange L.num_classes_ ∧ e.1 ≠ L.background_label_id_ ∧
      ∀ idx ∈ e.2, idx ∈ nmsResult L nms d s e.1 := by
  intro e he
  by_cases hc : L.keep_top_k_ > -1 ∧ ((survivors L nms d s).length : Int) > L.keep_top_k_
  · obtain ⟨ps, hcp, hmeq, _, _⟩ := selectImage_cap L nms sortFn hs d s m k h hc.1 hc.2
    have hsub : ∀ p ∈ (sortFn ps).take L.keep_top_k_.toNat,
        (p.2.1, p.2.2) ∈ survivors L nms d s := by
      intro p hp
      have hp1 : p ∈ ps := (hs ps).1.subset (List.mem_of_mem_take hp)
      unfold survivors
      rw [← (collectPairs_spec s _ ps hcp).1]
      exact List.mem_map.2 ⟨p, hp1, rfl⟩
    rw [hmeq] at he
    obtain ⟨p, hp, hpk⟩ := regroup_keys he
    have hkey := mem_survivors (hsub p hp)
    rw [hpk] at hkey
    refine ⟨hkey.1, hkey.2.1, ?_⟩
    intro idx hidx
    have hmem : (e.1, idx) ∈ emitOrder (regroup ((sortFn ps).take L.keep_top_k_.toNat)) :=
      mem_emitOrder.2 ⟨e.2, he, hidx⟩
    obtain ⟨q, hq, hqe⟩ := List.mem_map.1 ((emitOrder_regroup_perm _).subset hmem)
    have := mem_survivors (hsub q hq)
    have h1 : q.2.1 = e.1 := congrArg Prod.fst hqe
    have h2 : q.2.2 = idx := congrArg Prod.snd hqe
    rw [h1, h2] at this
    exact this.2.2
  · obtain ⟨hmeq, _⟩ := selectImage_pass L nms sortFn d s m k h hc
    rw [hmeq] at he
    obtain ⟨c, l⟩ := e
    obtain ⟨h1, h2, h3⟩ := mem_nmsOutputs he
    refine ⟨h1, h2, ?_⟩
    intro idx hidx
    rw [← h3]
    exact hidx

theorem writeLines_isSome (need_save : Bool) (label : Int) (rboxes : List NormalizedRBox) :
    ∀ (l : List Int), (∀ idx ∈ l, ∃ x, vecAt rboxes idx = some x) →
      ∃ ls, writeLines need_save label rboxes l = some ls := by
  intro l
  induction l with
  | nil => intro _; exact ⟨[], rfl⟩
  | cons idx l ih =>
    intro hl
    obtain ⟨x, hx⟩ := hl idx (List.mem_cons_self _ _)
    obtain ⟨ls, hls⟩ := ih (fun i hi => hl i (List.mem_cons_of_mem _ hi))
    unfold writeLines
    cases need_save with
    | false => exact ⟨ls, by simpa using hls⟩
    | true => exact ⟨lineOf label x :: ls, by simp [hx, hls]⟩

theorem resultLoop_isSome (L : Layer) (nms : NMS) (img : LabelRBox × ConfScores)
    (hw : WellFormed L nms img) :
    ∀ (m : IndexMap),
      (∀ e ∈ m, e.1 ∈ classRange L.num_classes_ ∧ e.1 ≠ L.background_label_id_ ∧
        ∀ idx ∈ e.2, idx ∈ nmsResult L nms img.1 img.2 e.1) →
      ∃ ls, resultLoop L img.1 img.2 m = some ls := by
  intro m
  induction m with
  | nil => intro _; exact ⟨[], rfl⟩
  | cons e m ih =>
    obtain ⟨label, indices⟩ := e
    intro hm
    obtain ⟨hc1, hc2, hc3⟩ := hm (label, indices) (List.mem_cons_self _ _)
    obtain ⟨scores, rboxes, h1, h2, h3⟩ := hw label hc1 hc2
    have hres : nmsResult L nms img.1 img.2 label =
        nms rboxes scores L.confidence_threshold_ L.nms_threshold_ L.eta_ L.top_k_ := by
      simp only [nmsResult, h1, h2]
    obtain ⟨a, ha⟩ := writeLines_isSome L.need_save_ label rboxes indices
      (fun idx hidx => by
        have := h3 idx (by rw [← hres]; exact hc3 idx hidx)
        exact vecAt_of_lt rboxes idx this.1 this.2.2)
    obtain ⟨b, hb⟩ := ih (fun e he => hm e (List.mem_cons_of_mem _ he))
    exact ⟨a ++ b, by simp [resultLoop, h1, h2, ha, hb]⟩

theorem imageLoop_isSome (L : Layer) (nms : NMS)
    (sortFn : List ScoreIndexPair → List ScoreIndexPair) :
    ∀ (imgs : List (LabelRBox × ConfScores)) (acc : List IndexMap) (nk : Int),
      (∀ img ∈ imgs, WellFormed L nms img) →
      ∃ r, imageLoop L nms sortFn imgs acc nk = some r := by
  intro imgs
  induction imgs with
  | nil => intro acc nk _; exact ⟨(acc, nk), rfl⟩
  | cons img imgs ih =>
    intro acc nk hw
    obtain ⟨r, hr⟩ := selectImage_isSome L nms sortFn img (hw img (List.mem_cons_self _ _))
    obtain ⟨indices, kept⟩ := r
    unfold imageLoop
    simp only [hr]
    exact ih _ _ (fun i hi => hw i (List.mem_cons_of_mem _ hi))

theorem outputLoop_isSome (L : Layer) (nms : NMS)
    (sortFn : List ScoreIndexPair → List ScoreIndexPair) (hs : IsStdSort sortFn) :
    ∀ (imgs : List (LabelRBox × ConfScores)) (ms : List IndexMap),
      (∀ img ∈ imgs, WellFormed L nms img) →
      List.Forall₂ (fun img m => ∃ k, selectImage L nms sortFn img.1 img.2 = some (m, k))
        imgs ms →
      ∃ fs, outputLoop L imgs ms = some fs := by
  intro imgs
  induction imgs with
  | nil =>
    intro ms _ hf
    cases hf
    exact ⟨[], rfl⟩
  | cons img imgs ih =>
    intro ms hw hf
    obtain ⟨m, ms', ⟨k, hk⟩, hrest, rfl⟩ := List.forall₂_cons_left_iff.1 hf
    obtain ⟨f, hf'⟩ := resultLoop_isSome L nms img (hw img (List.mem_cons_self _ _)) m
      (selectImage_entries L nms sortFn hs img.1 img.2 m k hk)
    obtain ⟨fs, hfs⟩ := ih ms' (fun i hi => hw i (List.mem_cons_of_mem _ hi)) hrest
    exact ⟨f :: fs, by simp [outputLoop, hf', hfs]⟩

/-- On a batch of well-formed images `Forward_cpu` runs to its end: no check
fails. -/
theorem Forward_cpu_isSome (L : Layer) (nms : NMS)
    (sortFn : List ScoreIndexPair → List ScoreIndexPair) (hs : IsStdSort sortFn)
    (images : List (LabelRBox × ConfScores))
    (hw : ∀ img ∈ images, WellFormed L nms img) :
    ∃ out, Forward_cpu L nms sortFn images = some out := by
  obtain ⟨r, hr⟩ := imageLoop_isSome L nms sortFn images [] 0 hw
  obtain ⟨all, nk⟩ := r
  obtain ⟨ms, h1, h2, _⟩ := imageLoop_spec L nms sortFn hs images [] 0 all nk hr
  simp only [List.nil_append] at h1
  subst h1
  obtain ⟨fs, hfs⟩ := outputLoop_isSome L nms sortFn hs images all hw h2
  unfold Forward_cpu
  simp only [hr, hfs]
  exact ⟨_, rfl⟩

/-! ### The claims -/

/-- C1. Cap invariant: for every image of a batch that `Forward_cpu` processes
and every `keep_top_k >= 0`, the number of (class, index) entries stored for
the image in `all_indices`, summed over the classes, is at most `keep_top_k`. -/
theorem cap_invariant (L : Layer) (nms : NMS)
    (sortFn : List ScoreIndexPair → List ScoreIndexPair) (hs : IsStdSort sortFn)
    (images : List (LabelRBox × ConfScores)) (out : ForwardResult)
    (h : Forward_cpu L nms sortFn images = some out)
    (img : LabelRBox × ConfScores) (m : IndexMap)
    (hm : (img, m) ∈ images.zip out.all_indices)
    (hk : 0 ≤ L.keep_top_k_) :
    (totalCount m : Int) ≤ L.keep_top_k_ := by
  obtain ⟨k, hsel⟩ := Forward_cpu_image L nms sortFn hs images out h img m hm
  rw [← selectImage_count L nms sortFn hs img.1 img.2 m k hsel]
  by_cases hc : L.keep_top_k_ > -1 ∧
      ((survivors L nms img.1 img.2).length : Int) > L.keep_top_k_
  · obtain ⟨ps, _, _, hkk, _⟩ := selectImage_cap L nms sortFn hs img.1 img.2 m k hsel hc.1 hc.2
    rw [hkk]
  · obtain ⟨_, hkk⟩ := selectImage_pass L nms sortFn img.1 img.2 m k hsel hc
    rw [hkk]
    have hn : ¬ ((survivors L nms img.1 img.2).length : Int) > L.keep_top_k_ :=
      fun h' => hc ⟨by omega, h'⟩
    omega

/-- Witness of C1: with `keep_top_k = 1` the image with two survivors keeps one
entry. -/
theorem cap_invariant_witness :
    Forward_cpu (layer0 1 true) nmsKeepAll sortDescend [image0] = some resultCap ∧
      (totalCount [(2, [0])] : Int) ≤ (layer0 1 true).keep_top_k_ :=
  ⟨by with_unfolding_all rfl,
    cap_invariant (layer0 1 true) nmsKeepAll sortDescend sortDescend_isStdSort [image0]
      resultCap (by with_unfolding_all rfl) image0 [(2, [0])]
      (by simp [resultCap]) (by decide)⟩

/-- C3. Pass-through: for every image, if `keep_top_k < 0` or the number of NMS
survivors over the classes but the background is at most `keep_top_k`, the map
stored in `all_indices` is the map of the per-class NMS outputs: its keys are
the classes but the background, in ascending order, and the vector of each
class is the vector that `ApplyNMSFastR` returned for the class. -/
theorem pass_through (L : Layer) (nms : NMS)
    (sortFn : List ScoreIndexPair → List ScoreIndexPair) (hs : IsStdSort sortFn)
    (images : List (LabelRBox × ConfScores)) (out : ForwardResult)
    (h : Forward_cpu L nms sortFn images = some out)
    (img : LabelRBox × ConfScores) (m : IndexMap)
    (hm : (img, m) ∈ images.zip out.all_indices)
    (hc : L.keep_top_k_ < 0 ∨
      ((survivors L nms img.1 img.2).length : Int) ≤ L.keep_top_k_) :
    m = nmsOutputs L nms img.1 img.2 (classRange L.num_classes_) ∧
      m.map Prod.fst =
        (classRange L.num_classes_).filter (fun c => decide (c ≠ L.background_label_id_)) ∧
      ∀ c ∈ classRange L.num_classes_, c ≠ L.background_label_id_ →
        ∃ scores rboxes, List.lookup c img.2 = some scores ∧
          List.lookup (if L.share_location_ then (-1 : Int) else c) img.1 = some rboxes ∧
          List.lookup c m = some
            (nms rboxes scores L.confidence_threshold_ L.nms_threshold_ L.eta_ L.top_k_) := by
  obtain ⟨k, hsel⟩ := Forward_cpu_image L nms sortFn hs images out h img m hm
  have hnc : ¬ (L.keep_top_k_ > -1 ∧
      ((survivors L nms img.1 img.2).length : Int) > L.keep_top_k_) := by
    rintro ⟨h1, h2⟩
    rcases hc with hc | hc <;> omega
  obtain ⟨hmeq, _⟩ := selectImage_pass L nms sortFn img.1 img.2 m k hsel hnc
  refine ⟨hmeq, ?_, ?_⟩
  · rw [hmeq]
    simp [nmsOutputs, Function.comp_def]
  · intro c hcr hcb
    obtain ⟨r', hcl⟩ := selectImage_classLoop L nms sortFn img.1 img.2 (m, k) hsel
    obtain ⟨scores, rboxes, h1, h2⟩ :=
      classLoop_defined L nms img.1 img.2 _ [] 0 r' hcl c hcr hcb
    refine ⟨scores, rboxes, h1, h2, ?_⟩
    have hmem : (c, nmsResult L nms img.1 img.2 c) ∈
        nmsOutputs L nms img.1 img.2 (classRange L.num_classes_) := by
      simp only [nmsOutputs, List.mem_map, List.mem_filter, decide_eq_true_eq]
      exact ⟨c, ⟨hcr, hcb⟩, rfl⟩
    have hlk := lookup_of_mem_sorted
      (nmsOutputs_sorted L nms img.1 img.2 _ (classRange_sorted L.num_classes_)) hmem
    rw [hmeq, hlk]
    simp only [nmsResult, h1, h2]

/-- Witness of C3: with `keep_top_k = -1` the two survivors of the first image
and the empty vectors of the second image are stored as NMS returned them. -/
theorem pass_through_witness :
    Forward_cpu (layer0 (-1) true) nmsKeepAll sortDescend [image0, imageEmpty] =
        some resultPass ∧
      [(1, [0]), (2, [0])] =
        nmsOutputs (layer0 (-1) true) nmsKeepAll image0.1 image0.2 (classRange 3) :=
  ⟨by with_unfolding_all rfl,
    (pass_through (layer0 (-1) true) nmsKeepAll sortDescend sortDescend_isStdSort
      [image0, imageEmpty] resultPass (by with_unfolding_all rfl) image0 [(1, [0]), (2, [0])]
      (by simp [resultPass]) (Or.inl (by decide))).1⟩

/-- C5. Background exclusion: for every image and every configuration, the
class `background_label_id` is no key of the map stored for the image in
`all_indices`, in the pass-through branch and after the `keep_top_k`
selection alike. -/
theorem background_excluded (L : Layer) (nms : NMS)
    (sortFn : List ScoreIndexPair → List ScoreIndexPair) (hs : IsStdSort sortFn)
    (images : List (LabelRBox × ConfScores)) (out : ForwardResult)
    (h : Forward_cpu L nms sortFn images = some out)
    (img : LabelRBox × ConfScores) (m : IndexMap)
    (hm : (img, m) ∈ images.zip out.all_indices) :
    L.background_label_id_ ∉ m.map Prod.fst := by
  obtain ⟨k, hsel⟩ := Forward_cpu_image L nms sortFn hs images out h img m hm
  intro hmem
  obtain ⟨e, he, hkey⟩ := List.mem_map.1 hmem
  by_cases hc : L.keep_top_k_ > -1 ∧
      ((survivors L nms img.1 img.2).length : Int) > L.keep_top_k_
  · obtain ⟨ps, hcp, hmeq, _, _⟩ :=
      selectImage_cap L nms sortFn hs img.1 img.2 m k hsel hc.1 hc.2
    rw [hmeq] at he
    obtain ⟨p, hp, hpk⟩ := regroup_keys he
    have hp1 : p ∈ ps := ((hs ps).1.subset (List.mem_of_mem_take hp))
    have hp2 : p.2 ∈ survivors L nms img.1 img.2 := by
      unfold survivors
      rw [← (collectPairs_spec img.2 _ ps hcp).1]
      exact List.mem_map.2 ⟨p, hp1, rfl⟩
    have hp3 : (p.2.1, p.2.2) ∈ survivors L nms img.1 img.2 := hp2
    have := (mem_survivors hp3).2.1
    exact this (by rw [hpk, hkey])
  · obtain ⟨hmeq, _⟩ := selectImage_pass L nms sortFn img.1 img.2 m k hsel hc
    rw [hmeq] at he
    obtain ⟨c, l⟩ := e
    exact (mem_nmsOutputs he).2.1 hkey

/-- Witness of C5: class 0 is the background of `layer0` and no key of the map
kept for `image0`. -/
theorem background_excluded_witness :
    Forward_cpu (layer0 1 true) nmsKeepAll sortDescend [image0] = some resultCap ∧
      (layer0 1 true).background_label_id_ ∉ List.map Prod.fst [((2 : Int), [(0 : Int)])] :=
  ⟨by with_unfolding_all rfl,
    background_excluded (layer0 1 true) nmsKeepAll sortDescend sortDescend_isStdSort [image0]
      resultCap (by with_unfolding_all rfl) image0 [(2, [0])] (by simp [resultCap])⟩

/-- C2. Selection: when `keep_top_k >= 0` and the image has more NMS survivors
over the classes but the background than `keep_top_k`, the map stored for the
image holds `keep_top_k` entries, every entry is an index that NMS returned
for its class, the entries and a list of dropped entries together are the
survivors, and the score of every entry is at least the score of every
dropped entry. -/
theorem keep_top_k_selection (L : Layer) (nms : NMS)
    (sortFn : List ScoreIndexPair → List ScoreIndexPair) (hs : IsStdSort sortFn)
    (images : List (LabelRBox × ConfScores)) (out : ForwardResult)
    (h : Forward_cpu L nms sortFn images = some out)
    (img : LabelRBox × ConfScores) (m : IndexMap)
    (hm : (img, m) ∈ images.zip out.all_indices)
    (hk : 0 ≤ L.keep_top_k_)
    (hex : L.keep_top_k_ < ((survivors L nms img.1 img.2).length : Int)) :
    (totalCount m : Int) = L.keep_top_k_ ∧
      (∀ c idx, (c, idx) ∈ emitOrder m →
        c ≠ L.background_label_id_ ∧ idx ∈ nmsResult L nms img.1 img.2 c) ∧
      ∃ dropped, (emitOrder m ++ dropped).Perm (survivors L nms img.1 img.2) ∧
        ∀ a ∈ emitOrder m, ∀ b ∈ dropped, ∃ sa sb,
          scoreOf img.2 a = some sa ∧ scoreOf img.2 b = some sb ∧ sb ≤ sa := by
  obtain ⟨k, hsel⟩ := Forward_cpu_image L nms sortFn hs images out h img m hm
  obtain ⟨ps, hcp, hmeq, hkk, _⟩ :=
    selectImage_cap L nms sortFn hs img.1 img.2 m k hsel (by omega) (by omega)
  obtain ⟨hmap, hscore⟩ := collectPairs_spec img.2 _ ps hcp
  have hsurv : ps.map (fun p => p.2) = survivors L nms img.1 img.2 := hmap
  have hkept : (emitOrder m).Perm (((sortFn ps).take L.keep_top_k_.toNat).map (fun p => p.2)) := by
    rw [hmeq]
    exact emitOrder_regroup_perm _
  have hall : (emitOrder m ++ ((sortFn ps).drop L.keep_top_k_.toNat).map (fun p => p.2)).Perm
      (survivors L nms img.1 img.2) := by
    refine (hkept.append_right _).trans ?_
    rw [← List.map_append, List.take_append_drop, ← hsurv]
    exact (hs ps).1.map _
  refine ⟨?_, ?_, ((sortFn ps).drop L.keep_top_k_.toNat).map (fun p => p.2), hall, ?_⟩
  · rw [← selectImage_count L nms sortFn hs img.1 img.2 m k hsel, hkk]
  · intro c idx hci
    have : (c, idx) ∈ survivors L nms img.1 img.2 :=
      hall.subset (List.mem_append_left _ hci)
    exact (mem_survivors this).2
  · intro a ha b hb
    obtain ⟨p, hp, rfl⟩ := List.mem_map.1 (hkept.subset ha)
    obtain ⟨q, hq, rfl⟩ := List.mem_map.1 hb
    have hp' : p ∈ ps := (hs ps).1.subset (List.mem_of_mem_take hp)
    have hq' : q ∈ ps := (hs ps).1.subset (List.mem_of_mem_drop hq)
    refine ⟨p.1, q.1, hscore p hp', hscore q hq', ?_⟩
    have hpw := (hs ps).2
    rw [← List.take_append_drop L.keep_top_k_.toNat (sortFn ps), List.pairwise_append] at hpw
    have := hpw.2.2 p hp q hq
    simpa [SortScorePairDescend] using this

/-- Witness of C2, the example of the specification: `keep_top_k = 1`, two
classes with one survivor each, of scores `0.6` and `0.95`; only the entry of
score `0.95`, index 0 of class 2, is kept. -/
theorem keep_top_k_selection_witness :
    Forward_cpu (layer0 1 true) nmsKeepAll sortDescend [image0] = some resultCap ∧
      survivors (layer0 1 true) nmsKeepAll image0.1 image0.2 = [(1, 0), (2, 0)] ∧
      scoreOf image0.2 (1, 0) = some (3 / 5) ∧ scoreOf image0.2 (2, 0) = some (19 / 20) ∧
      (totalCount [(2, [0])] : Int) = (layer0 1 true).keep_top_k_ :=
  ⟨by with_unfolding_all rfl, by with_unfolding_all rfl, by with_unfolding_all rfl,
    by with_unfolding_all rfl,
    (keep_top_k_selection (layer0 1 true) nmsKeepAll sortDescend sortDescend_isStdSort [image0]
      resultCap (by with_unfolding_all rfl) image0 [(2, [0])] (by simp [resultCap])
      (by decide) (by with_unfolding_all decide)).1⟩

/-- C4 as stated fails: with `keep_top_k = 2` the image `image2` has three
survivors, the cap keeps index 0 of class 1 (score `0.7`) and index 0 of class
2 (score `0.95`), and the result loop visits them in this order, the lower
score first. -/
theorem score_order_counterexample :
    Forward_cpu (layer0 2 false) nmsKeepAll sortDescend [image2] = some resultOrder ∧
      (0 : Int) ≤ (layer0 2 false).keep_top_k_ ∧
      (layer0 2 false).keep_top_k_ <
        ((survivors (layer0 2 false) nmsKeepAll image2.1 image2.2).length : Int) ∧
      emitOrder [(1, [0]), (2, [0])] = [(1, 0), (2, 0)] ∧
      scoreOf image2.2 (1, 0) = some (7 / 10) ∧ scoreOf image2.2 (2, 0) = some (19 / 20) ∧
      ¬ ((19 / 20 : ℚ) ≤ 7 / 10) :=
  ⟨by with_unfolding_all rfl, by decide, by with_unfolding_all decide, by rfl,
    by with_unfolding_all rfl, by with_unfolding_all rfl, by norm_num⟩

/-- C4 amended. When the cap triggers, the map stored for the image has its
classes in ascending order of the label, and within each class the kept
indices are in non-increasing order of their scores. -/
theorem score_order_per_class (L : Layer) (nms : NMS)
    (sortFn : List ScoreIndexPair → List ScoreIndexPair) (hs : IsStdSort sortFn)
    (images : List (LabelRBox × ConfScores)) (out : ForwardResult)
    (h : Forward_cpu L nms sortFn images = some out)
    (img : LabelRBox × ConfScores) (m : IndexMap)
    (hm : (img, m) ∈ images.zip out.all_indices)
    (hk : 0 ≤ L.keep_top_k_)
    (hex : L.keep_top_k_ < ((survivors L nms img.1 img.2).length : Int)) :
    KeysSorted m ∧
      ∀ c l, (c, l) ∈ m →
        l.Pairwise (fun i j => ∃ si sj,
          scoreOf img.2 (c, i) = some si ∧ scoreOf img.2 (c, j) = some sj ∧ sj ≤ si) := by
  obtain ⟨k, hsel⟩ := Forward_cpu_image L nms sortFn hs images out h img m hm
  obtain ⟨ps, hcp, hmeq, _, _⟩ :=
    selectImage_cap L nms sortFn hs img.1 img.2 m k hsel (by omega) (by omega)
  obtain ⟨_, hscore⟩ := collectPairs_spec img.2 _ ps hcp
  refine ⟨by rw [hmeq]; exact regroup_sorted _, ?_⟩
  intro c l hcl
  rw [hmeq] at hcl
  rw [regroup_entry hcl, List.pairwise_map]
  have hpw : ((sortFn ps).take L.keep_top_k_.toNat).Pairwise
      (fun a b => SortScorePairDescend b a = false) :=
    (hs ps).2.sublist (List.take_sublist _ _)
  refine (hpw.filter _).imp_of_mem ?_
  intro p q hp hq hpq
  obtain ⟨hp1, hp2⟩ := List.mem_filter.1 hp
  obtain ⟨hq1, hq2⟩ := List.mem_filter.1 hq
  have hp' : p ∈ ps := (hs ps).1.subset (List.mem_of_mem_take hp1)
  have hq' : q ∈ ps := (hs ps).1.subset (List.mem_of_mem_take hq1)
  have ep : (c, p.2.2) = p.2 := by
    rw [← of_decide_eq_true hp2]
  have eq : (c, q.2.2) = q.2 := by
    rw [← of_decide_eq_true hq2]
  refine ⟨p.1, q.1, by rw [ep]; exact hscore p hp', by rw [eq]; exact hscore q hq', ?_⟩
  simpa [SortScorePairDescend] using hpq

/-- Witness of C4 amended: the map kept for `image2` with `keep_top_k = 2`. -/
theorem score_order_per_class_witness :
    Forward_cpu (layer0 2 false) nmsKeepAll sortDescend [image2] = some resultOrder ∧
      KeysSorted [((1 : Int), [(0 : Int)]), (2, [0])] :=
  ⟨by with_unfolding_all rfl,
    (score_order_per_class (layer0 2 false) nmsKeepAll sortDescend sortDescend_isStdSort
      [image2] resultOrder (by with_unfolding_all rfl) image2 [(1, [0]), (2, [0])]
      (by simp [resultOrder]) (by decide) (by with_unfolding_all decide)).1⟩

/-- The lines written for the indices of one label with `need_save_` set: one
line per index, with the numbers of the box at that index. -/
theorem writeLines_lines (label : Int) (rboxes : List NormalizedRBox) :
    ∀ (l : List Int) (ls : List OutLine), writeLines true label rboxes l = some ls →
      List.Forall₂
        (fun idx line => ∃ rbox, vecAt rboxes idx = some rbox ∧ line = lineOf label rbox)
        l ls := by
  intro l
  induction l with
  | nil =>
    intro ls h
    simp only [writeLines, Option.some.injEq] at h
    subst h
    exact List.Forall₂.nil
  | cons idx l ih =>
    intro ls h
    unfold writeLines at h
    simp only [if_true] at h
    cases hv : vecAt rboxes idx with
    | none => simp [hv] at h
    | some rbox =>
      cases hr : writeLines true label rboxes l with
      | none => simp [hv, hr] at h
      | some qs =>
        simp only [hv, hr, Option.some.injEq] at h
        subst h
        exact List.Forall₂.cons ⟨rbox, hv, rfl⟩ (ih qs hr)

/-- What `Forward_cpu` leaves in `top[0]` whenever at least one detection is
kept: the shape `1 x 1 x 1 x 1` and the single value `0`.  The file of each
image has one line per entry of the image's map when `need_save_` is set, and
no line otherwise. -/
theorem Forward_cpu_top (L : Layer) (nms : NMS)
    (sortFn : List ScoreIndexPair → List ScoreIndexPair) (hs : IsStdSort sortFn)
    (images : List (LabelRBox × ConfScores)) (out : ForwardResult)
    (h : Forward_cpu L nms sortFn images = some out)
    (hkept : 0 < batchCount out.all_indices) :
    out.top_shape = [1, 1, 1, 1] ∧ out.top_data = [0] ∧
      out.files.map List.length =
        out.all_indices.map (fun m => if L.need_save_ then totalCount m else 0) := by
  obtain ⟨h1, h2, h3, h4, h5⟩ := Forward_cpu_spec L nms sortFn hs images out h
  refine ⟨h4, ?_, outputLoop_lengths L images out.all_indices out.files h1.length_eq h5⟩
  rw [h3, if_neg]
  rw [h2]
  omega

/-- C6 at its failing input.  On the batch `[image0]` with `keep_top_k = 1` one
detection is kept, index 0 of class 2 with score `0.95`.  The claim, like the
comment of lines 115-116, has `top[0]` hold one 8-field record for it, of
length 8.  The code leaves `top[0]` with the shape `1 x 1 x 1 x 1` and the
single value `0`: the stores of lines 292-301 are commented out, and the
numbers of the box reach the file of the image only. -/
theorem result_assembly_failing_input :
    Forward_cpu (layer0 1 true) nmsKeepAll sortDescend [image0] = some resultCap ∧
      resultCap.all_indices = [[(2, [0])]] ∧
      batchCount resultCap.all_indices = 1 ∧
      resultCap.top_shape = [1, 1, 1, 1] ∧
      resultCap.top_data = [0] ∧
      resultCap.top_data.length ≠ 8 * batchCount resultCap.all_indices ∧
      resultCap.files =
        [[{ xcenter300 := 150, ycenter300 := 150, width300 := 30, height300 := 30,
            label := 2, angle := 0 }]] :=
  ⟨by with_unfolding_all rfl, by rfl, by decide, by rfl, by rfl, by decide,
    by with_unfolding_all rfl⟩

/-- C7. Batch sentinel: the counter `num_kept` equals the number of indices
stored in `all_indices` over all images, and `Forward_cpu` writes `-1` into
`top_data[0]` if and only if every index vector of every image of the batch
is empty; otherwise it writes `0`. -/
theorem batch_sentinel (L : Layer) (nms : NMS)
    (sortFn : List ScoreIndexPair → List ScoreIndexPair) (hs : IsStdSort sortFn)
    (images : List (LabelRBox × ConfScores)) (out : ForwardResult)
    (h : Forward_cpu L nms sortFn images = some out) :
    out.num_kept = (batchCount out.all_indices : Int) ∧
      (out.top_data = [-1] ↔ ∀ m ∈ out.all_indices, ∀ e ∈ m, e.2 = []) ∧
      (¬ (∀ m ∈ out.all_indices, ∀ e ∈ m, e.2 = []) → out.top_data = [0]) := by
  obtain ⟨_, h2, h3, _, _⟩ := Forward_cpu_spec L nms sortFn hs images out h
  have hz : out.num_kept = 0 ↔ ∀ m ∈ out.all_indices, ∀ e ∈ m, e.2 = [] := by
    rw [← batchCount_eq_zero_iff, h2]
    exact Int.natCast_eq_zero
  refine ⟨h2, ?_, ?_⟩
  · rw [← hz, h3]
    by_cases h0 : out.num_kept = 0
    · simp [h0]
    · simp [h0]
  · intro hne
    rw [h3, if_neg (fun h0 => hne (hz.1 h0))]

/-- Witness of C7: a batch of two images without survivors gives `[-1]`. -/
theorem batch_sentinel_witness :
    Forward_cpu (layer0 5 true) nmsKeepAll sortDescend [imageEmpty, imageEmpty] =
        some resultEmpty ∧
      resultEmpty.num_kept = (batchCount resultEmpty.all_indices : Int) :=
  ⟨by with_unfolding_all rfl,
    (batch_sentinel (layer0 5 true) nmsKeepAll sortDescend sortDescend_isStdSort
      [imageEmpty, imageEmpty] resultEmpty (by with_unfolding_all rfl)).1⟩

/-- C8 as stated fails: in the batch `[image0, imageEmpty]` the second image has
no survivor, the first keeps two detections, and the output is `[0]`: no
negative value is in `top[0]`, and the file of the second image is empty. -/
theorem image_sentinel_counterexample :
    Forward_cpu (layer0 (-1) true) nmsKeepAll sortDescend [image0, imageEmpty] =
        some resultPass ∧
      survivors (layer0 (-1) true) nmsKeepAll imageEmpty.1 imageEmpty.2 = [] ∧
      resultPass.top_data = [0] ∧
      (∀ x ∈ resultPass.top_data, ¬ x < 0) ∧
      resultPass.files.map List.length = [2, 0] :=
  ⟨by with_unfolding_all rfl, by with_unfolding_all rfl, by rfl,
    by simp [resultPass], by rfl⟩

/-- C8 amended. The sentinel is one value for the batch: an image without
survivors has only empty index vectors, and `top_data[0]` is `-1` when every
image of the batch keeps nothing and `0` when some image of the batch keeps a
detection. -/
theorem image_without_survivors (L : Layer) (nms : NMS)
    (sortFn : List ScoreIndexPair → List ScoreIndexPair) (hs : IsStdSort sortFn)
    (images : List (LabelRBox × ConfScores)) (out : ForwardResult)
    (h : Forward_cpu L nms sortFn images = some out)
    (img : LabelRBox × ConfScores) (m : IndexMap)
    (hm : (img, m) ∈ images.zip out.all_indices)
    (hz : survivors L nms img.1 img.2 = []) :
    totalCount m = 0 ∧
      ((∀ m' ∈ out.all_indices, totalCount m' = 0) → out.top_data.head? = some (-1)) ∧
      ((∃ m' ∈ out.all_indices, 0 < totalCount m') → out.top_data = [0]) := by
  obtain ⟨k, hsel⟩ := Forward_cpu_image L nms sortFn hs images out h img m hm
  obtain ⟨_, h2, h3, _, _⟩ := Forward_cpu_spec L nms sortFn hs images out h
  refine ⟨?_, ?_, ?_⟩
  · have hnc : ¬ (L.keep_top_k_ > -1 ∧
        ((survivors L nms img.1 img.2).length : Int) > L.keep_top_k_) := by
      rw [hz]
      rintro ⟨h1, h2⟩
      simp only [List.length_nil, Nat.cast_zero] at h2
      omega
    obtain ⟨_, hk⟩ := selectImage_pass L nms sortFn img.1 img.2 m k hsel hnc
    have := selectImage_count L nms sortFn hs img.1 img.2 m k hsel
    rw [hk, hz] at this
    simpa using this.symm
  · intro hall
    have hb : batchCount out.all_indices = 0 := by
      unfold batchCount
      apply List.sum_eq_zero
      intro x hx
      obtain ⟨m', hm', rfl⟩ := List.mem_map.1 hx
      exact hall m' hm'
    rw [h3, h2, hb]
    rfl
  · rintro ⟨m', hm', hpos⟩
    have hb : 0 < batchCount out.all_indices := by
      unfold batchCount
      exact lt_of_lt_of_le hpos (List.single_le_sum (fun _ _ => Nat.zero_le _) _
        (List.mem_map.2 ⟨m', hm', rfl⟩))
    rw [h3, if_neg]
    rw [h2]
    omega

/-- Witness of C8 amended: a batch of two images without survivors. -/
theorem image_without_survivors_witness :
    Forward_cpu (layer0 5 true) nmsKeepAll sortDescend [imageEmpty, imageEmpty] =
        some resultEmpty ∧
      survivors (layer0 5 true) nmsKeepAll imageEmpty.1 imageEmpty.2 = [] ∧
      totalCount [((1 : Int), ([] : List Int)), (2, [])] = 0 :=
  ⟨by with_unfolding_all rfl, by with_unfolding_all rfl,
    (image_without_survivors (layer0 5 true) nmsKeepAll sortDescend sortDescend_isStdSort
      [imageEmpty, imageEmpty] resultEmpty (by with_unfolding_all rfl) imageEmpty
      [(1, []), (2, [])] (by simp [resultEmpty]) (by with_unfolding_all rfl)).1⟩

/-- C9 as stated fails: the layer set up from `param0` has `num_param_ = 2`, and
a prior blob of height 5 passes its `Reshape` when the location blob has 4
channels and the confidence blob 6; `num_priors_` becomes 2 and the fifth value
of the prior blob is ignored. -/
theorem reshape_counterexample :
    (LayerSetUp (param0 1 false false "")).bind
        (fun L => Reshape L ⟨1, 4, 1, 1⟩ ⟨1, 6, 1, 1⟩ ⟨1, 2, 5, 1⟩) =
        some (layer0 1 false, [1, 1, 1, 1]) ∧
      (layer0 1 false).num_priors_ = 2 ∧
      (5 : Int) ≠ (layer0 1 false).num_priors_ * (layer0 1 false).num_param_ ∧
      (5 : Int) % (layer0 1 false).num_param_ ≠ 0 :=
  ⟨by with_unfolding_all rfl, by rfl, by decide, by decide⟩

/-- With `int` products `Reshape` accepts shapes whose exact product is out of
range: 536870911 priors and 9 classes give `4831838199`, which wraps to the
`536870903` channels of the confidence blob. -/
theorem reshape_wraps :
    Reshape { layer0 1 false with num_classes_ := 9 }
        ⟨1, 1073741822, 1, 1⟩ ⟨1, 536870903, 1, 1⟩ ⟨1, 2, 1073741822, 1⟩ =
      some ({ layer0 1 false with num_classes_ := 9, num_priors_ := 536870911 },
        [1, 1, 1, 1]) ∧
      (536870911 : Int) * 9 ≠ 536870903 :=
  ⟨by with_unfolding_all rfl, by decide⟩

/-- C9 amended. `Reshape` takes `num_priors_` as the height of the prior blob
divided by `num_param_`, rounded toward zero, and succeeds exactly when the two
batch sizes agree, `num_param_` is not zero, the `int` product
`num_priors_ * num_loc_classes_ * num_param_` is the number of channels of the
location blob and the `int` product `num_priors_ * num_classes_` is the number
of channels of the confidence blob; it fails otherwise.  The products are those
of 32-bit arithmetic.  The height is not compared with
`num_priors_ * num_param_`. -/
theorem reshape_checks (L : Layer) (bottom0 bottom1 bottom2 : BlobShape) :
    (Reshape L bottom0 bottom1 bottom2 =
        some ({ L with num_priors_ := Int.tdiv bottom2.height L.num_param_ }, [1, 1, 1, 1]) ↔
      (bottom0.num = bottom1.num ∧ L.num_param_ ≠ 0 ∧
        wrap32 (wrap32 (Int.tdiv bottom2.height L.num_param_ * L.num_loc_classes_) *
          L.num_param_) = bottom0.channels ∧
        wrap32 (Int.tdiv bottom2.height L.num_param_ * L.num_classes_) = bottom1.channels)) ∧
    (Reshape L bottom0 bottom1 bottom2 = none ↔
      ¬ (bottom0.num = bottom1.num ∧ L.num_param_ ≠ 0 ∧
        wrap32 (wrap32 (Int.tdiv bottom2.height L.num_param_ * L.num_loc_classes_) *
          L.num_param_) = bottom0.channels ∧
        wrap32 (Int.tdiv bottom2.height L.num_param_ * L.num_classes_) = bottom1.channels)) := by
  unfold Reshape
  by_cases h1 : bottom0.num = bottom1.num
  · by_cases h0 : L.num_param_ = 0
    · simp [h1, h0]
    · by_cases h2 : wrap32 (wrap32 (Int.tdiv bottom2.height L.num_param_ * L.num_loc_classes_) *
          L.num_param_) = bottom0.channels
      · by_cases h3 : wrap32 (Int.tdiv bottom2.height L.num_param_ * L.num_classes_) =
            bottom1.channels
        · simp [h1, h0, h2, h3]
        · simp [h1, h0, h2, h3]
      · simp [h1, h0, h2]
  · simp [h1]

/-- C10 as stated fails: with angle regression and without size regression
`LayerSetUp` sets `num_param_` to 3. -/
theorem num_param_counterexample :
    (LayerSetUp (param0 1 false true "")).map (fun L => L.num_param_) = some 3 ∧
      (3 : Int) ∉ [2, 4, 5] :=
  ⟨by with_unfolding_all rfl, by decide⟩

/-- C10 amended. For every combination of `regress_size` and `regress_angle`
the `num_param_` computed by `LayerSetUp` is 2, plus 2 with size regression,
plus 1 with angle regression: one of 2, 3, 4 or 5. -/
theorem num_param_values (p : RDetectionOutputParameter) (L : Layer)
    (h : LayerSetUp p = some L) :
    L.num_param_ =
        2 + (if p.regress_size then 2 else 0) + (if p.regress_angle then 1 else 0) ∧
      L.num_param_ ∈ [(2 : Int), 3, 4, 5] := by
  unfold LayerSetUp at h
  split at h
  · by_cases h1 : p.nms_threshold < 0
    · rw [if_pos h1] at h
      cases h
    · by_cases h2 : p.eta ≤ 0
      · rw [if_neg h1, if_pos h2] at h
        cases h
      · by_cases h3 : 1 < p.eta
        · rw [if_neg h1, if_neg h2, if_pos h3] at h
          cases h
        · rw [if_neg h1, if_neg h2, if_neg h3] at h
          simp only [Option.some.injEq] at h
          subst h
          refine ⟨rfl, ?_⟩
          cases p.regress_size <;> cases p.regress_angle <;> simp
  · cases h

/-- Witness of C10 amended: size and angle regression give 5 parameters. -/
theorem num_param_values_witness :
    (LayerSetUp (param0 1 true true "")).map (fun L => L.num_param_) = some 5 ∧
      (5 : Int) ∈ [(2 : Int), 3, 4, 5] :=
  ⟨by with_unfolding_all rfl,
    (num_param_values (param0 1 true true "")
      { layer0 1 false with
        regress_size_ := true, regress_angle_ := true, prior_width_ := -1,
        prior_height_ := -1, num_param_ := 5, num_priors_ := 0 }
      (by with_unfolding_all rfl)).2⟩

end RDetectionOutput
